import Mathlib

/-!
Verification development for the core game engine of the AI word-connect
puzzle (client managers: BoardManager, PathFinder, MatchManager,
GameStatsManager, DifficultyManager, and the game-state serialization
utilities).  Each TypeScript function relevant to the specification is
shallowly embedded as an executable Lean definition, keeping the source's
names and control structure; machine numbers are modelled as Nat/Int/Rat,
JS objects as structures, thrown errors as Except, and the JSON layer as a
structured value tree.  The theorems at the end of the file settle the
specification claims against these definitions.
-/

/-- Card kind: a word card or a meaning card (shared type `CardType`). -/
inductive CardType
  | word
  | meaning
deriving DecidableEq, Repr

/-- Shared `WordCard` record; `confuse` is the optional field. -/
structure WordCard where
  id : String
  word : String
  meaning : String
  hint : String
  type : CardType
  pairId : String
  confuse : Option String := none
deriving DecidableEq, Repr

/-- Grid position (shared `Position`); `Int` coordinates because the path
finder walks one ring outside the board (row/col can be `-1`). -/
structure Pos where
  row : Int
  col : Int
deriving DecidableEq, Repr

instance : Inhabited Pos := ⟨⟨0, 0⟩⟩

/-- Shared `BoardState`: grid of nullable cards plus dimensions. -/
structure BoardState where
  grid : List (List (Option WordCard))
  rows : Nat
  cols : Nat
deriving DecidableEq, Repr

/-- Shared `Path`: a point list plus the turn count found by the search. -/
structure ConnPath where
  points : List Pos
  turns : Nat
deriving DecidableEq, Repr

/-- Read a cell of a grid at integer coordinates; out-of-range reads give
`none` (the TypeScript code only indexes in range, behind bounds guards). -/
def getCell (grid : List (List (Option WordCard))) (row col : Int) : Option WordCard :=
  if 0 ≤ row ∧ 0 ≤ col then
    (((grid.get? row.toNat).getD []).get? col.toNat).getD none
  else
    none

/-- Write a cell of a grid at integer coordinates (no-op out of range). -/
def setCell (grid : List (List (Option WordCard))) (row col : Int)
    (v : Option WordCard) : List (List (Option WordCard)) :=
  if 0 ≤ row ∧ 0 ≤ col then
    grid.set row.toNat (((grid.get? row.toNat).getD []).set col.toNat v)
  else
    grid

/-! ## BoardManager -/

/-- Mutable state of `BoardManager` (`grid`, `rows`, `cols`,
`remainingCards`).  The counter is an `Int` because the code decrements a
plain number. -/
structure BoardManager where
  grid : List (List (Option WordCard))
  rows : Nat
  cols : Nat
  remainingCards : Int
deriving Repr

/-- State produced by the `BoardManager` constructor. -/
def BoardManager.new : BoardManager := ⟨[], 0, 0, 0⟩

/-- Swap two positions of a list (used by the Fisher-Yates loop). -/
def listSwap {α : Type} (l : List α) (i j : Nat) : List α :=
  match l.get? i, l.get? j with
  | some a, some b => (l.set i b).set j a
  | _, _ => l

/-- Fisher-Yates loop of `shuffleCards`: index `i` runs downward; at each
step the code draws `j = floor(random*(i+1)) ∈ [0, i]` and swaps; the draw
stream is a parameter and is reduced mod `i+1`, which is exactly the range
the source guarantees for it. -/
def shuffleAux {α : Type} (draws : Nat → Nat) : Nat → List α → List α
  | 0, cards => cards
  | i + 1, cards => shuffleAux draws i (listSwap cards (i + 1) (draws (i + 1) % (i + 2)))

/-- `BoardManager.shuffleCards`, parameterised by the `Math.random` draws. -/
def shuffleCards {α : Type} (draws : Nat → Nat) (cards : List α) : List α :=
  shuffleAux draws (cards.length - 1) cards

/-- `BoardManager.initBoard`.  The source assigns `rows`/`cols` first, then
throws when the card count does not match `rows*cols`; on success it places
the shuffled cards row-major and resets the counter. -/
def initBoard (rows cols : Nat) (cards : List WordCard) (draws : Nat → Nat)
    (m : BoardManager) : Except String Unit × BoardManager :=
  let m1 : BoardManager := { m with rows := rows, cols := cols }
  let totalCells := rows * cols
  if cards.length ≠ totalCells then
    (Except.error ("Card count (" ++ toString cards.length ++
      ") does not match board size (" ++ toString totalCells ++ ")"), m1)
  else
    let shuffled := shuffleCards draws cards
    (Except.ok (), { m1 with
      grid := (List.range rows).map (fun r =>
        (List.range cols).map (fun c => shuffled.get? (r * cols + c))),
      remainingCards := (totalCells : Int) })

/-- `BoardManager.isValidPosition`. -/
def isValidPosition (m : BoardManager) (row col : Int) : Bool :=
  decide (0 ≤ row ∧ row < (m.rows : Int) ∧ 0 ≤ col ∧ col < (m.cols : Int))

/-- `BoardManager.getCardAt`. -/
def getCardAt (m : BoardManager) (row col : Int) : Option WordCard :=
  if isValidPosition m row col then getCell m.grid row col else none

/-- `BoardManager.removeCard`: clears an occupied in-bounds cell and
decrements the counter, otherwise does nothing. -/
def removeCard (row col : Int) (m : BoardManager) : BoardManager :=
  if isValidPosition m row col = true ∧ getCell m.grid row col ≠ none then
    { m with grid := setCell m.grid row col none,
             remainingCards := m.remainingCards - 1 }
  else
    m

/-- `BoardManager.removeCardPair`: removes `pos1` then `pos2`. -/
def removeCardPair (pos1 pos2 : Pos) (m : BoardManager) : BoardManager :=
  removeCard pos2.row pos2.col (removeCard pos1.row pos1.col m)

/-- `BoardManager.isGameComplete`. -/
def isGameComplete (m : BoardManager) : Bool :=
  m.remainingCards == 0

/-- Number of non-null cells of a grid (the count `restoreFromState`
recomputes). -/
def countCards (grid : List (List (Option WordCard))) : Nat :=
  (grid.map (fun row => row.countP (fun c => c.isSome))).sum

/-- `BoardManager.restoreFromState`: copies the snapshot in and recomputes
the remaining-card counter from the grid content. -/
def restoreFromState (s : BoardState) (_m : BoardManager) : BoardManager :=
  { grid := s.grid, rows := s.rows, cols := s.cols,
    remainingCards := (countCards s.grid : Int) }

/-- `BoardManager.getBoardState` (deep copy of the grid). -/
def getBoardState (m : BoardManager) : BoardState :=
  ⟨m.grid, m.rows, m.cols⟩

/-- All cells of a grid are empty. -/
def gridAllNull (grid : List (List (Option WordCard))) : Bool :=
  grid.all (fun row => row.all (fun c => c.isNone))

/-! ## PathFinder -/

/-- The four axis direction vectors, in the source's order
(up, down, left, right). -/
def DIRECTIONS : List Pos := [⟨-1, 0⟩, ⟨1, 0⟩, ⟨0, -1⟩, ⟨0, 1⟩]

/-- Direction vector for an index `d ∈ [0, 3]`. -/
def dirDelta (d : Nat) : Pos := (DIRECTIONS.get? d).getD ⟨0, 0⟩

/-- Move one cell in direction `d`. -/
def stepPos (p : Pos) (d : Nat) : Pos :=
  ⟨p.row + (dirDelta d).row, p.col + (dirDelta d).col⟩

/-- `PathFinder.isPassable`: the destination is always enterable; then the
two-ring bound, then the outside-one-ring rule, then board emptiness. -/
def isPassable (row col : Int) (board : BoardState) (e : Pos) : Bool :=
  if row = e.row ∧ col = e.col then
    true
  else if row < -1 ∨ row > (board.rows : Int) ∨ col < -1 ∨ col > (board.cols : Int) then
    false
  else if row < 0 ∨ row ≥ (board.rows : Int) ∨ col < 0 ∨ col ≥ (board.cols : Int) then
    true
  else
    (getCell board.grid row col).isNone

/-- BFS queue node (`BFSNode` of the source); `direction` is the index of
the last step taken. -/
structure BFSNode where
  position : Pos
  direction : Nat
  turns : Nat
  path : List Pos
deriving DecidableEq, Repr

/-- Visited key `(row, col, direction, turns)` — the source formats these
four fields into a string, injectively; we keep the tuple itself. -/
abbrev VKey := Pos × Nat × Nat

/-- Key of a queue node. -/
def nodeKey (n : BFSNode) : VKey := (n.position, n.direction, n.turns)

/-- Initial scan of `findPath`: from the start cell, try the four
directions in order; a direction reaching the end returns the direct path
at once, a passable neighbour is enqueued and marked visited. -/
def initScan (start e : Pos) (board : BoardState) :
    List Nat → List BFSNode → List VKey →
    Except ConnPath (List BFSNode × List VKey)
  | [], adds, vis => Except.ok (adds, vis)
  | d :: ds, adds, vis =>
    let np := stepPos start d
    if np = e then
      Except.error ⟨[start, e], 0⟩
    else if isPassable np.row np.col board e then
      initScan start e board ds (adds ++ [⟨np, d, 0, [start, np]⟩]) ((np, d, 0) :: vis)
    else
      initScan start e board ds adds vis

/-- Inner scan of the BFS loop: from the dequeued node, try the four
directions in order, pruning on the turn budget, returning on the end,
and enqueueing fresh passable states. -/
def scanDirs (board : BoardState) (e : Pos) (cur : BFSNode) :
    List Nat → List BFSNode → List VKey →
    Except ConnPath (List BFSNode × List VKey)
  | [], adds, vis => Except.ok (adds, vis)
  | d :: ds, adds, vis =>
    let np := stepPos cur.position d
    let nt := if d = cur.direction then cur.turns else cur.turns + 1
    if 2 < nt then
      scanDirs board e cur ds adds vis
    else if np = e then
      Except.error ⟨cur.path ++ [e], nt⟩
    else if isPassable np.row np.col board e = true ∧ (np, d, nt) ∉ vis then
      scanDirs board e cur ds (adds ++ [⟨np, d, nt, cur.path ++ [np]⟩]) ((np, d, nt) :: vis)
    else
      scanDirs board e cur ds adds vis

/-- The BFS `while` loop, with an explicit fuel argument; `none` stands for
fuel exhaustion, which `bfsFuel` is proved to preclude. -/
def bfsLoop (board : BoardState) (e : Pos) :
    Nat → List BFSNode → List VKey → Option (Option ConnPath)
  | 0, _, _ => none
  | _ + 1, [], _ => some none
  | fuel + 1, cur :: rest, vis =>
    match scanDirs board e cur [0, 1, 2, 3] [] vis with
    | Except.error p => some (some p)
    | Except.ok (adds, vis') => bfsLoop board e fuel (rest ++ adds) vis'

/-- All visited keys the search can create: positions in the one-ring
extended box, a direction index below 4, a turn count below 3. -/
def allKeys (board : BoardState) : List VKey :=
  (List.range (board.rows + 2)).flatMap (fun r =>
    (List.range (board.cols + 2)).flatMap (fun c =>
      (List.range 4).flatMap (fun d =>
        (List.range 3).map (fun t => (⟨(r : Int) - 1, (c : Int) - 1⟩, d, t)))))

/-- Fuel that dominates the loop's iteration count. -/
def bfsFuel (board : BoardState) : Nat := 2 * (allKeys board).length + 8

/-- `PathFinder.findPath`: rejects equal endpoints, runs the initial scan
(returning a two-point path when the end is adjacent), then the BFS loop. -/
def findPath (start e : Pos) (board : BoardState) : Option ConnPath :=
  if start = e then
    none
  else
    match initScan start e board [0, 1, 2, 3] [] [] with
    | Except.error p => some p
    | Except.ok (q0, v0) => (bfsLoop board e (bfsFuel board) q0 v0).getD none

/-- Result of `PathFinder.getDirection`. -/
inductive Axis
  | horizontal
  | vertical
deriving DecidableEq, Repr

/-- `PathFinder.getDirection`: same row means horizontal, else vertical. -/
def getDirection (f t : Pos) : Axis :=
  if f.row = t.row then Axis.horizontal else Axis.vertical

/-- `PathFinder.calculateTurns`: counts interior points where the axis of
travel changes. -/
def calculateTurns : List Pos → Nat
  | a :: b :: c :: rest =>
    (if getDirection a b ≠ getDirection b c then 1 else 0) + calculateTurns (b :: c :: rest)
  | _ => 0

/-- Interior loop of `simplifyPath`: the turning interior points, in
order. -/
def simplifyAux : List Pos → List Pos
  | a :: b :: c :: rest =>
    (if getDirection a b ≠ getDirection b c then [b] else []) ++ simplifyAux (b :: c :: rest)
  | _ => []

/-- `PathFinder.simplifyPath`: keeps the first point, the turning interior
points and the last point; copies the turn count. -/
def simplifyPath (path : ConnPath) : ConnPath :=
  if path.points.length ≤ 2 then
    path
  else
    ⟨path.points.take 1 ++ simplifyAux path.points ++
      (match path.points.getLast? with
       | some x => [x]
       | none => []),
     path.turns⟩

/-- `PathFinder.isValidPath`. -/
def isValidPath (path : ConnPath) : Bool :=
  if path.points.length < 2 then false else path.turns ≤ 2

/-! ## MatchManager -/

/-- Shared `MatchFailureReason`. -/
inductive MatchFailureReason
  | invalid_path
  | content_mismatch
deriving DecidableEq, Repr

/-- Shared `MatchResult` record. -/
structure MatchResult where
  success : Bool
  failureReason : Option MatchFailureReason := none
  path : Option ConnPath := none
deriving DecidableEq, Repr

/-- `MatchManager.isContentMatch`: same `pairId`, different `type`. -/
def isContentMatch (card1 card2 : WordCard) : Bool :=
  if card1.pairId ≠ card2.pairId then false
  else if card1.type = card2.type then false
  else true

/-- `MatchManager.evaluateMatch`: path check first, then content check. -/
def evaluateMatch (card1 card2 : WordCard) (pos1 pos2 : Pos)
    (board : BoardState) : MatchResult :=
  match findPath pos1 pos2 board with
  | none => { success := false, failureReason := some MatchFailureReason.invalid_path }
  | some path =>
    if isContentMatch card1 card2 = false then
      { success := false, failureReason := some MatchFailureReason.content_mismatch,
        path := some path }
    else
      { success := true, path := some path }

/-! ## GameStatsManager -/

/-- Shared `GameScore`. -/
structure GameScore where
  correct : Nat
  wrong : Nat
deriving DecidableEq, Repr

/-- Shared `MatchRecord`; the timestamp is the `Date.now()` value. -/
structure MatchRecord where
  word : String
  meaning : String
  isCorrect : Bool
  timestamp : Int
deriving DecidableEq, Repr

/-- State of `GameStatsManager`. -/
structure GameStatsManager where
  score : GameScore
  matchHistory : List MatchRecord
  startTime : Int
  elapsedTime : Int
  isPaused : Bool
deriving Repr

/-- State produced by the `GameStatsManager` constructor. -/
def GameStatsManager.new : GameStatsManager :=
  ⟨⟨0, 0⟩, [], 0, 0, true⟩

/-- `GameStatsManager.recordMatch`; `now` is the `Date.now()` value used
for the record's timestamp. -/
def recordMatch (word meaning : String) (isCorrect : Bool) (now : Int)
    (m : GameStatsManager) : GameStatsManager :=
  { m with
    matchHistory := m.matchHistory ++ [⟨word, meaning, isCorrect, now⟩],
    score :=
      if isCorrect then { m.score with correct := m.score.correct + 1 }
      else { m.score with wrong := m.score.wrong + 1 } }

/-- Static `GameStatsManager.calculateStatsFromHistory`: replays the
history, counting correct and wrong records. -/
def calculateStatsFromHistory (history : List MatchRecord) : GameScore :=
  history.foldl
    (fun acc r =>
      if r.isCorrect then { acc with correct := acc.correct + 1 }
      else { acc with wrong := acc.wrong + 1 })
    ⟨0, 0⟩

/-- `GameStatsManager.validateStats`: the incrementally maintained score
matches the replayed history. -/
def validateStats (m : GameStatsManager) : Bool :=
  let calculated := calculateStatsFromHistory m.matchHistory
  calculated.correct == m.score.correct && calculated.wrong == m.score.wrong

/-- Apply a list of `recordMatch` calls (word, meaning, isCorrect,
timestamp) in order. -/
def applyRecords (ops : List (String × String × Bool × Int))
    (m : GameStatsManager) : GameStatsManager :=
  ops.foldl (fun acc op => recordMatch op.1 op.2.1 op.2.2.1 op.2.2.2 acc) m

/-! ## DifficultyManager -/

/-- Shared `DifficultyAdjustment`. -/
inductive DifficultyAdjustment
  | increase
  | decrease
  | none
deriving DecidableEq, Repr

/-- Shared `DifficultyState`: the two streak counters plus the last-action
timestamp. -/
structure DifficultyState where
  consecutiveCorrect : Nat
  consecutiveWrong : Nat
  lastActionTime : Int
deriving DecidableEq, Repr

/-- `CONSECUTIVE_THRESHOLD` constant. -/
def CONSECUTIVE_THRESHOLD : Nat := 3

/-- `DifficultyManager.handleCorrectMatch`. -/
def handleCorrectMatch (s : DifficultyState) : DifficultyAdjustment × DifficultyState :=
  let s1 := { s with consecutiveCorrect := s.consecutiveCorrect + 1, consecutiveWrong := 0 }
  if CONSECUTIVE_THRESHOLD ≤ s1.consecutiveCorrect then
    (DifficultyAdjustment.increase, { s1 with consecutiveCorrect := 0 })
  else
    (DifficultyAdjustment.none, s1)

/-- `DifficultyManager.handleWrongMatch`. -/
def handleWrongMatch (s : DifficultyState) : DifficultyAdjustment × DifficultyState :=
  let s1 := { s with consecutiveWrong := s.consecutiveWrong + 1, consecutiveCorrect := 0 }
  if CONSECUTIVE_THRESHOLD ≤ s1.consecutiveWrong then
    (DifficultyAdjustment.decrease, { s1 with consecutiveWrong := 0 })
  else
    (DifficultyAdjustment.none, s1)

/-- `DifficultyManager.recordMatchResult`; `now` is the `Date.now()` value
written into `lastActionTime` (the inactivity timer has no bearing on the
returned adjustment and is not part of the modelled state). -/
def recordMatchResult (isCorrect : Bool) (now : Int)
    (s : DifficultyState) : DifficultyAdjustment × DifficultyState :=
  let s1 := { s with lastActionTime := now }
  if isCorrect then handleCorrectMatch s1 else handleWrongMatch s1

/-- Emission stream of the incremental machine over a list of outcomes
paired with their `Date.now()` values. -/
def runMachine (s : DifficultyState) : List (Bool × Int) → List DifficultyAdjustment
  | [] => []
  | (b, t) :: rest =>
    let r := recordMatchResult b t s
    r.1 :: runMachine r.2 rest

/-- First adjustment of an emission stream that is not `none` (or `none`
when the stream never triggers). -/
def firstAdjustment : List DifficultyAdjustment → DifficultyAdjustment
  | [] => DifficultyAdjustment.none
  | a :: rest => if a = DifficultyAdjustment.none then firstAdjustment rest else a

/-- Accumulator loop of the static
`DifficultyManager.calculateAdjustmentFromSequence`. -/
def calcAdjAux : List Bool → Nat → Nat → DifficultyAdjustment
  | [], _, _ => DifficultyAdjustment.none
  | r :: rest, cc, cw =>
    if r then
      if CONSECUTIVE_THRESHOLD ≤ cc + 1 then DifficultyAdjustment.increase
      else calcAdjAux rest (cc + 1) 0
    else
      if CONSECUTIVE_THRESHOLD ≤ cw + 1 then DifficultyAdjustment.decrease
      else calcAdjAux rest 0 (cw + 1)

/-- Static `DifficultyManager.calculateAdjustmentFromSequence`. -/
def calculateAdjustmentFromSequence (results : List Bool) : DifficultyAdjustment :=
  calcAdjAux results 0 0

/-! ## Serialization (StateCodec) -/

/-- Shared `Language` (named `Lang` here: Mathlib already declares a root `Language`). -/
inductive Lang
  | zh
  | en
deriving DecidableEq, Repr

/-- Shared `Level`. -/
inductive Level
  | easy
  | medium
  | hard
deriving DecidableEq, Repr

/-- Board size of a `GameConfig`; the validator only requires positive
numbers here, so the fields are rationals (JSON numbers). -/
structure BoardSize where
  rows : Rat
  cols : Rat
deriving DecidableEq, Repr

/-- Shared `GameConfig`. -/
structure GameConfig where
  language : Lang
  level : Level
  theme : String
  boardSize : BoardSize
deriving DecidableEq, Repr

/-- Shared `GameState` (the serializable session snapshot). -/
structure GameState where
  config : GameConfig
  board : BoardState
  score : GameScore
  elapsedTime : Rat
  selectedCard : Option Pos
  isComplete : Bool
deriving DecidableEq, Repr

/-- JSON value tree: the structured form `JSON.stringify` prints and
`JSON.parse` reads back; numbers are rationals. -/
inductive JValue
  | jnull
  | jbool (b : Bool)
  | jnum (q : Rat)
  | jstr (s : String)
  | jarr (items : List JValue)
  | jobj (fields : List (String × JValue))

/-- Property access on a JSON object: the first binding of the key, or
`none` (JS `undefined`) when the key is absent. -/
def jget (fields : List (String × JValue)) (k : String) : Option JValue :=
  (fields.find? (fun kv => kv.1 = k)).map (fun kv => kv.2)

/-- View of a JSON value as an object for property access: JS `typeof`
calls both objects and arrays "object" (array index properties are not
string keys, so named lookup on an array gives `undefined`); `null` and
primitives fail the source's `!data || typeof data !== 'object'` guard. -/
def asObject : JValue → Option (List (String × JValue))
  | JValue.jobj fields => some fields
  | JValue.jarr _ => some []
  | _ => none

/-- Encoding of a `CardType` (enum spellings of the wire form). -/
def encodeCardType : CardType → String
  | CardType.word => "word"
  | CardType.meaning => "meaning"

/-- JSON form of a `WordCard`; an absent `confuse` is omitted by
`JSON.stringify`. -/
def encodeCard (c : WordCard) : JValue :=
  JValue.jobj
    ([("id", JValue.jstr c.id), ("word", JValue.jstr c.word),
      ("meaning", JValue.jstr c.meaning), ("hint", JValue.jstr c.hint),
      ("type", JValue.jstr (encodeCardType c.type)),
      ("pairId", JValue.jstr c.pairId)] ++
      (match c.confuse with
       | none => []
       | some s => [("confuse", JValue.jstr s)]))

/-- JSON form of a grid cell (`null` for an empty cell). -/
def encodeCell : Option WordCard → JValue
  | none => JValue.jnull
  | some c => encodeCard c

/-- JSON form of a `BoardState`. -/
def encodeBoard (b : BoardState) : JValue :=
  JValue.jobj
    [("grid", JValue.jarr (b.grid.map (fun row => JValue.jarr (row.map encodeCell)))),
     ("rows", JValue.jnum (b.rows : Rat)),
     ("cols", JValue.jnum (b.cols : Rat))]

/-- JSON form of a `GameConfig`. -/
def encodeConfig (c : GameConfig) : JValue :=
  JValue.jobj
    [("language", JValue.jstr (match c.language with | Lang.zh => "zh" | Lang.en => "en")),
     ("level", JValue.jstr (match c.level with
       | Level.easy => "easy" | Level.medium => "medium" | Level.hard => "hard")),
     ("theme", JValue.jstr c.theme),
     ("boardSize", JValue.jobj
       [("rows", JValue.jnum c.boardSize.rows), ("cols", JValue.jnum c.boardSize.cols)])]

/-- `serializeGameState`, at the level of the JSON document the string
printed by `JSON.stringify(state)` denotes: a direct structural dump of
every field of the state. -/
def serializeGameState (s : GameState) : JValue :=
  JValue.jobj
    [("config", encodeConfig s.config),
     ("board", encodeBoard s.board),
     ("score", JValue.jobj
       [("correct", JValue.jnum (s.score.correct : Rat)),
        ("wrong", JValue.jnum (s.score.wrong : Rat))]),
     ("elapsedTime", JValue.jnum s.elapsedTime),
     ("selectedCard",
       match s.selectedCard with
       | none => JValue.jnull
       | some p => JValue.jobj
           [("row", JValue.jnum (p.row : Rat)), ("col", JValue.jnum (p.col : Rat))]),
     ("isComplete", JValue.jbool s.isComplete)]

/-- Numeric field check of the codec: `typeof v !== 'number' || v <= 0`
fails with the given message. -/
def requirePositiveNum (v : Option JValue) (msg : String) : Except String Rat :=
  match v with
  | some (JValue.jnum q) => if q ≤ 0 then Except.error msg else Except.ok q
  | _ => Except.error msg

/-- Numeric field check of the codec:
`typeof v !== 'number' || v < 0 || !Number.isInteger(v)`. -/
def requireNonnegInt (v : Option JValue) (msg : String) : Except String Rat :=
  match v with
  | some (JValue.jnum q) => if q < 0 ∨ q.den ≠ 1 then Except.error msg else Except.ok q
  | _ => Except.error msg

/-- Numeric field check of the codec:
`typeof v !== 'number' || !Number.isInteger(v) || v < 0`. -/
def requireIntNonneg (v : Option JValue) (msg : String) : Except String Rat :=
  match v with
  | some (JValue.jnum q) => if q.den ≠ 1 ∨ q < 0 then Except.error msg else Except.ok q
  | _ => Except.error msg

/-- Numeric field check of the codec: `typeof v !== 'number' || v < 0`. -/
def requireNonnegNum (v : Option JValue) (msg : String) : Except String Rat :=
  match v with
  | some (JValue.jnum q) => if q < 0 then Except.error msg else Except.ok q
  | _ => Except.error msg

/-- `validateGameConfig` (private helper of the codec). -/
def validateGameConfig (data : Option JValue) : Except String GameConfig := do
  let fields ←
    match data.bind asObject with
    | some fields => Except.ok fields
    | none => Except.error "config must be an object"
  let language ←
    match jget fields "language" with
    | some (JValue.jstr "zh") => Except.ok Lang.zh
    | some (JValue.jstr "en") => Except.ok Lang.en
    | _ => Except.error "config.language must be \"zh\" or \"en\""
  let level ←
    match jget fields "level" with
    | some (JValue.jstr "easy") => Except.ok Level.easy
    | some (JValue.jstr "medium") => Except.ok Level.medium
    | some (JValue.jstr "hard") => Except.ok Level.hard
    | _ => Except.error "config.level must be \"easy\", \"medium\", or \"hard\""
  let theme ←
    match jget fields "theme" with
    | some (JValue.jstr t) => Except.ok t
    | _ => Except.error "config.theme must be a string"
  let bsFields ←
    match (jget fields "boardSize").bind asObject with
    | some bs => Except.ok bs
    | none => Except.error "config.boardSize must be an object"
  let rows ← requirePositiveNum (jget bsFields "rows")
    "config.boardSize.rows must be a positive number"
  let cols ← requirePositiveNum (jget bsFields "cols")
    "config.boardSize.cols must be a positive number"
  Except.ok ⟨language, level, theme, ⟨rows, cols⟩⟩

/-- `validateWordCard` (private helper of the codec); `r`, `c` appear in
the error paths. -/
def validateWordCard (data : JValue) (r c : Nat) : Except String WordCard := do
  let fields ←
    match asObject data with
    | some fields => Except.ok fields
    | none =>
      Except.error ("board.grid[" ++ toString r ++ "][" ++ toString c ++
        "] must be an object or null")
  let at_ := "WordCard at [" ++ toString r ++ "][" ++ toString c ++ "]"
  let idv ←
    match jget fields "id" with
    | some (JValue.jstr s) => Except.ok s
    | _ => Except.error (at_ ++ ".id must be a string")
  let wordv ←
    match jget fields "word" with
    | some (JValue.jstr s) => Except.ok s
    | _ => Except.error (at_ ++ ".word must be a string")
  let meaningv ←
    match jget fields "meaning" with
    | some (JValue.jstr s) => Except.ok s
    | _ => Except.error (at_ ++ ".meaning must be a string")
  let hintv ←
    match jget fields "hint" with
    | some (JValue.jstr s) => Except.ok s
    | _ => Except.error (at_ ++ ".hint must be a string")
  let typev ←
    match jget fields "type" with
    | some (JValue.jstr "word") => Except.ok CardType.word
    | some (JValue.jstr "meaning") => Except.ok CardType.meaning
    | _ => Except.error (at_ ++ ".type must be \"word\" or \"meaning\"")
  let pairIdv ←
    match jget fields "pairId" with
    | some (JValue.jstr s) => Except.ok s
    | _ => Except.error (at_ ++ ".pairId must be a string")
  let confusev ←
    match jget fields "confuse" with
    | none => Except.ok Option.none
    | some (JValue.jstr s) => Except.ok (some s)
    | some _ => Except.error (at_ ++ ".confuse must be a string if present")
  Except.ok ⟨idv, wordv, meaningv, hintv, typev, pairIdv, confusev⟩

/-- Cell loop of `validateBoardState` over one grid row (`c` counts the
column for error paths). -/
def validateRow (r : Nat) : List JValue → Nat → Except String (List (Option WordCard))
  | [], _ => Except.ok []
  | cell :: rest, c => do
    let v ←
      match cell with
      | JValue.jnull => Except.ok Option.none
      | other => (validateWordCard other r c).map some
    let vs ← validateRow r rest (c + 1)
    Except.ok (v :: vs)

/-- Row loop of `validateBoardState` (`r` counts the row for error
paths). -/
def validateGrid (cols : Rat) : List JValue → Nat →
    Except String (List (List (Option WordCard)))
  | [], _ => Except.ok []
  | row :: rest, r => do
    let cells ←
      match row with
      | JValue.jarr cells => Except.ok cells
      | _ => Except.error ("board.grid[" ++ toString r ++ "] must be an array")
    if (cells.length : Rat) ≠ cols then
      Except.error ("board.grid[" ++ toString r ++ "] must have " ++
        toString cols ++ " columns")
    else do
      let vrow ← validateRow r cells 0
      let vrest ← validateGrid cols rest (r + 1)
      Except.ok (vrow :: vrest)

/-- `validateBoardState` (private helper of the codec). -/
def validateBoardState (data : Option JValue) : Except String BoardState := do
  let fields ←
    match data.bind asObject with
    | some fields => Except.ok fields
    | none => Except.error "board must be an object"
  let rows ← requirePositiveNum (jget fields "rows") "board.rows must be a positive number"
  let cols ← requirePositiveNum (jget fields "cols") "board.cols must be a positive number"
  let items ←
    match jget fields "grid" with
    | some (JValue.jarr items) => Except.ok items
    | _ => Except.error "board.grid must be an array"
  if (items.length : Rat) ≠ rows then
    Except.error ("board.grid must have " ++ toString rows ++ " rows")
  else do
    let grid ← validateGrid cols items 0
    Except.ok ⟨grid, rows.num.toNat, cols.num.toNat⟩

/-- `validateGameScore` (private helper of the codec). -/
def validateGameScore (data : Option JValue) : Except String GameScore := do
  let fields ←
    match data.bind asObject with
    | some fields => Except.ok fields
    | none => Except.error "score must be an object"
  let correct ← requireNonnegInt (jget fields "correct")
    "score.correct must be a non-negative integer"
  let wrong ← requireNonnegInt (jget fields "wrong")
    "score.wrong must be a non-negative integer"
  Except.ok ⟨correct.num.toNat, wrong.num.toNat⟩

/-- `validateSelectedCard` (private helper of the codec): a JSON `null` is
accepted as "no selection", a missing key is not. -/
def validateSelectedCard (data : Option JValue) : Except String (Option Pos) := do
  match data with
  | some JValue.jnull => Except.ok Option.none
  | _ =>
    let fields ←
      match data.bind asObject with
      | some fields => Except.ok fields
      | none => Except.error "selectedCard must be an object or null"
    let row ← requireIntNonneg (jget fields "row")
      "selectedCard.row must be a non-negative integer"
    let col ← requireIntNonneg (jget fields "col")
      "selectedCard.col must be a non-negative integer"
    Except.ok (some ⟨row.num, col.num⟩)

/-- `validateAndRestoreGameState`: field-by-field validation before any
state is constructed. -/
def validateAndRestoreGameState (data : JValue) : Except String GameState := do
  let fields ←
    match asObject data with
    | some fields => Except.ok fields
    | none => Except.error "Game state must be an object"
  let config ← validateGameConfig (jget fields "config")
  let board ← validateBoardState (jget fields "board")
  let score ← validateGameScore (jget fields "score")
  let elapsedTime ← requireNonnegNum (jget fields "elapsedTime")
    "elapsedTime must be a non-negative number"
  let selectedCard ← validateSelectedCard (jget fields "selectedCard")
  let isComplete ←
    match jget fields "isComplete" with
    | some (JValue.jbool b) => Except.ok b
    | _ => Except.error "isComplete must be a boolean"
  Except.ok ⟨config, board, score, elapsedTime, selectedCard, isComplete⟩

/-- `deserializeGameState`, at the JSON-document level: parse (the
`JSON.parse` text layer is the standard bijection between well-formed JSON
text and this value tree) then validate and restore. -/
def deserializeGameState (data : JValue) : Except String GameState :=
  validateAndRestoreGameState data

/-- `areWordCardsEqual` (private helper of the equality check). -/
def areWordCardsEqual (card1 card2 : WordCard) : Bool :=
  card1.id == card2.id && card1.word == card2.word &&
  card1.meaning == card2.meaning && card1.hint == card2.hint &&
  card1.type == card2.type && card1.pairId == card2.pairId &&
  card1.confuse == card2.confuse

/-- Cell comparison used by the grid loop of `areGameStatesEqual`. -/
def cellsEqual : Option WordCard → Option WordCard → Bool
  | none, none => true
  | some c1, some c2 => areWordCardsEqual c1 c2
  | _, _ => false

/-- `areGameStatesEqual`: field-by-field comparison, with a deep grid
comparison over the first state's dimensions. -/
def areGameStatesEqual (s1 s2 : GameState) : Bool :=
  s1.config.language == s2.config.language &&
  s1.config.level == s2.config.level &&
  s1.config.theme == s2.config.theme &&
  s1.config.boardSize.rows == s2.config.boardSize.rows &&
  s1.config.boardSize.cols == s2.config.boardSize.cols &&
  s1.board.rows == s2.board.rows &&
  s1.board.cols == s2.board.cols &&
  ((List.range s1.board.rows).all (fun r =>
    (List.range s1.board.cols).all (fun c =>
      cellsEqual (getCell s1.board.grid r c) (getCell s2.board.grid r c)))) &&
  s1.score.correct == s2.score.correct &&
  s1.score.wrong == s2.score.wrong &&
  s1.elapsedTime == s2.elapsedTime &&
  (match s1.selectedCard, s2.selectedCard with
   | none, none => true
   | some p1, some p2 => p1.row == p2.row && p1.col == p2.col
   | _, _ => false) &&
  s1.isComplete == s2.isComplete

/-- Field constraints the codec enforces, as a predicate on states: these
are exactly the conditions under which every validator check passes on the
state's own serialized form. -/
def validGameState (s : GameState) : Bool :=
  decide (0 < s.config.boardSize.rows) &&
  decide (0 < s.config.boardSize.cols) &&
  decide (0 < s.board.rows) &&
  decide (0 < s.board.cols) &&
  (s.board.grid.length == s.board.rows) &&
  (s.board.grid.all (fun row => row.length == s.board.cols)) &&
  decide (0 ≤ s.elapsedTime) &&
  (match s.selectedCard with
   | none => true
   | some p => decide (0 ≤ p.row) && decide (0 ≤ p.col))

/-! ## Specification-side path notions

An orthogonal polyline out of `start` is named by its list of direction
indices; these notions restate the spec's connection concept independently
of the search code. -/

/-- Points visited when walking the direction list `ds` from `s`
(including `s` itself). -/
def posAlong (s : Pos) : List Nat → List Pos
  | [] => [s]
  | d :: ds => s :: posAlong (stepPos s d) ds

/-- Final position after walking `ds` from `s`. -/
def endPosOf (s : Pos) (ds : List Nat) : Pos := ds.foldl stepPos s

/-- Number of direction changes along a direction list. -/
def dirChanges : List Nat → Nat
  | a :: b :: rest => (if a ≠ b then 1 else 0) + dirChanges (b :: rest)
  | _ => 0

/-- Positions strictly between the two endpoints of the walk. -/
def innerPositions (s : Pos) (ds : List Nat) : List Pos :=
  ((posAlong s ds).drop 1).dropLast

/-- Cells the spec lets a connection pass through: the destination itself,
an empty board cell, or a cell of the one-ring extended border. -/
def SpecPassable (board : BoardState) (e p : Pos) : Prop :=
  p = e ∨
  (0 ≤ p.row ∧ p.row < (board.rows : Int) ∧ 0 ≤ p.col ∧ p.col < (board.cols : Int) ∧
    getCell board.grid p.row p.col = none) ∨
  ((-1 ≤ p.row ∧ p.row ≤ (board.rows : Int) ∧ -1 ≤ p.col ∧ p.col ≤ (board.cols : Int)) ∧
    (p.row < 0 ∨ (board.rows : Int) ≤ p.row ∨ p.col < 0 ∨ (board.cols : Int) ≤ p.col))

/-- A connecting orthogonal path from `start` to `e` with at most two
turns, passing through empty cells, the extended border, or into the
destination. -/
def IsConn (start e : Pos) (board : BoardState) (ds : List Nat) : Prop :=
  ds ≠ [] ∧ (∀ d ∈ ds, d < 4) ∧ endPosOf start ds = e ∧
  (∀ p ∈ innerPositions start ds, SpecPassable board e p) ∧
  dirChanges ds ≤ 2

/-- A connection whose intermediate cells avoid the destination (any
connection contains one: cut at the first arrival at `e`). -/
def IsConnStrict (start e : Pos) (board : BoardState) (ds : List Nat) : Prop :=
  IsConn start e board ds ∧ ∀ p ∈ innerPositions start ds, p ≠ e

/-- Turning interior points of a point list: every interior point where
the axis of travel changes, in order. -/
def turningPoints (pts : List Pos) : List Pos :=
  ((pts.zip ((pts.drop 1).zip (pts.drop 2))).filterMap
    (fun abc =>
      if getDirection abc.1 abc.2.1 ≠ getDirection abc.2.1 abc.2.2 then some abc.2.1
      else none))

/-- Opposite direction index (up/down, left/right). -/
def oppDir : Nat → Nat
  | 0 => 1
  | 1 => 0
  | 2 => 3
  | 3 => 2
  | n => n

/-- A direction list never immediately doubles back. -/
def NoReversal (ds : List Nat) : Prop :=
  List.Chain' (fun a b => b ≠ oppDir a) ds

/-- Length of a node's stored path (its BFS depth plus one). -/
def plen (n : BFSNode) : Nat := n.path.length

/-- Every queue node of the search is realised by a walk: its stored path
walks some direction list from the start, its state fields agree with that
walk, and every visited cell after the start is passable and distinct from
the destination. -/
def GoodNode (start e : Pos) (board : BoardState) (n : BFSNode) : Prop :=
  ∃ ds : List Nat, ds ≠ [] ∧ (∀ d ∈ ds, d < 4) ∧
    n.path = posAlong start ds ∧
    n.position = endPosOf start ds ∧
    ds.getLast? = some n.direction ∧
    n.turns = dirChanges ds ∧ n.turns ≤ 2 ∧
    (∀ p ∈ (posAlong start ds).drop 1, isPassable p.row p.col board e = true ∧ p ≠ e)

/-- New turn count for a step in direction `d` out of the state `k`. -/
def stepTurns (k : VKey) (d : Nat) : Nat :=
  if d = k.2.1 then k.2.2 else k.2.2 + 1

/-- A fully processed (dequeued) search state: all of its admissible
successors are already marked visited, and no admissible step out of it
reaches the destination. -/
def ClosedKey (board : BoardState) (e : Pos) (vis : List VKey) (k : VKey) : Prop :=
  (∀ d < 4, stepTurns k d ≤ 2 → stepPos k.1 d ≠ e →
    isPassable (stepPos k.1 d).row (stepPos k.1 d).col board e = true →
    ((stepPos k.1 d, d, stepTurns k d) : VKey) ∈ vis) ∧
  (∀ d < 4, ¬(stepTurns k d ≤ 2 ∧ stepPos k.1 d = e))

/-- Bounds satisfied by every visited key. -/
def keyInRange (board : BoardState) (k : VKey) : Prop :=
  -1 ≤ k.1.row ∧ k.1.row ≤ (board.rows : Int) ∧
  -1 ≤ k.1.col ∧ k.1.col ≤ (board.cols : Int) ∧ k.2.1 < 4 ∧ k.2.2 < 3

/-- Inductive invariant of the BFS loop. -/
structure LoopInv (start e : Pos) (board : BoardState)
    (queue : List BFSNode) (vis : List VKey) : Prop where
  good : ∀ n ∈ queue, GoodNode start e board n
  qsub : ∀ n ∈ queue, nodeKey n ∈ vis
  qnodup : (queue.map nodeKey).Nodup
  vnodup : vis.Nodup
  vrange : ∀ k ∈ vis, keyInRange board k
  vpos : ∀ k ∈ vis, k.1 ≠ e
  sorted : List.Sorted (fun a b => a ≤ b) (queue.map plen)
  window : ∀ n ∈ queue, ∀ h, queue.head? = some h → plen n ≤ plen h + 1
  closed : ∀ k ∈ vis, k ∉ queue.map nodeKey → ClosedKey board e vis k

/-- The frontier witness carried along a candidate walk `ds`: some queue
node realises a nonempty prefix of the walk, at a depth no worse than the
prefix's. -/
def WalkWitness (start : Pos) (queue : List BFSNode) (ds : List Nat) : Prop :=
  ∃ pre suf n, ds = pre ++ suf ∧ pre ≠ [] ∧ n ∈ queue ∧
    n.position = endPosOf start pre ∧ pre.getLast? = some n.direction ∧
    n.turns = dirChanges pre ∧ plen n ≤ pre.length + 1

/-- Properties of every path the search returns: its points walk a
direction list from the start to the destination, the stored turn count is
that walk's direction-change count and is at most two, and the walk's
intermediate cells are passable and avoid the destination. -/
def ReturnedGood (start e : Pos) (board : BoardState) (p : ConnPath) : Prop :=
  ∃ ds : List Nat, ds ≠ [] ∧ (∀ d ∈ ds, d < 4) ∧ endPosOf start ds = e ∧
    p.points = posAlong start ds ∧ p.turns = dirChanges ds ∧ p.turns ≤ 2 ∧
    (∀ q ∈ innerPositions start ds, isPassable q.row q.col board e = true ∧ q ≠ e)

/-- Postcondition of a non-returning pass of the direction scan `scanDirs`
over `ds` from the node `cur`: no admissible step reaches the destination,
and the freshly enqueued nodes extend `adds`/`vis` coherently. -/
def ScanOk (board : BoardState) (e : Pos) (cur : BFSNode) (ds : List Nat)
    (adds : List BFSNode) (vis : List VKey)
    (adds' : List BFSNode) (vis' : List VKey) : Prop :=
  (∀ d ∈ ds, ¬(stepTurns (nodeKey cur) d ≤ 2 ∧ stepPos cur.position d = e)) ∧
  ∃ news : List BFSNode,
    adds' = adds ++ news ∧
    vis' = (news.map nodeKey).reverse ++ vis ∧
    news.length ≤ ds.length ∧
    (news.map nodeKey).Nodup ∧
    (∀ m ∈ news, nodeKey m ∉ vis) ∧
    (∀ m ∈ news, ∃ d ∈ ds,
      m.position = stepPos cur.position d ∧ m.direction = d ∧
      m.turns = stepTurns (nodeKey cur) d ∧ m.path = cur.path ++ [m.position] ∧
      isPassable m.position.row m.position.col board e = true ∧ m.position ≠ e ∧
      m.turns ≤ 2) ∧
    (∀ d ∈ ds, stepTurns (nodeKey cur) d ≤ 2 →
      stepPos cur.position d ≠ e →
      isPassable (stepPos cur.position d).row (stepPos cur.position d).col board e = true →
      ((stepPos cur.position d, d, stepTurns (nodeKey cur) d) : VKey) ∈ vis')

/-- Postcondition of a non-returning pass of the initial scan `initScan`
over `ds` from the start cell. -/
def InitScanOk (start e : Pos) (board : BoardState) (ds : List Nat)
    (adds : List BFSNode) (vis : List VKey)
    (adds' : List BFSNode) (vis' : List VKey) : Prop :=
  (∀ d ∈ ds, stepPos start d ≠ e) ∧
  ∃ news : List BFSNode,
    adds' = adds ++ news ∧
    vis' = (news.map nodeKey).reverse ++ vis ∧
    news.length ≤ ds.length ∧
    (news.map nodeKey).Nodup ∧
    (∀ m ∈ news, nodeKey m ∉ vis) ∧
    (∀ m ∈ news, ∃ d ∈ ds,
      m.position = stepPos start d ∧ m.direction = d ∧ m.turns = 0 ∧
      m.path = [start, m.position] ∧
      isPassable m.position.row m.position.col board e = true ∧ m.position ≠ e) ∧
    (∀ d ∈ ds, stepPos start d ≠ e →
      isPassable (stepPos start d).row (stepPos start d).col board e = true →
      ((stepPos start d, d, 0) : VKey) ∈ vis')

/-! ## Concrete sample values used by witnesses and counterexamples -/

/-- Sample word-kind card. -/
def sampleCard : WordCard := ⟨"c1", "apple", "fruit", "red", CardType.word, "p1", none⟩

/-- Sample meaning-kind card of the same pair, with a `confuse` field. -/
def sampleCard2 : WordCard := ⟨"c2", "apple", "fruit", "red", CardType.meaning, "p1", some "pear"⟩

/-- Sample word-kind card of another pair. -/
def sampleCard3 : WordCard := ⟨"c3", "sky", "blue", "up", CardType.word, "p2", none⟩

/-- Small board with two adjacent cards on one row. -/
def sampleBoard : BoardState := ⟨[[some sampleCard, some sampleCard2]], 1, 2⟩

/-- Sample serializable game state (theme `animals`). -/
def sampleState : GameState :=
  ⟨⟨Lang.zh, Level.easy, "animals", ⟨4, 4⟩⟩,
   ⟨[[some sampleCard, none], [none, some sampleCard2]], 2, 2⟩,
   ⟨1, 2⟩, 5, some ⟨0, 0⟩, false⟩

/-- Sample state whose theme is the empty string. -/
def emptyThemeState : GameState :=
  ⟨⟨Lang.en, Level.medium, "", ⟨6, 6⟩⟩,
   ⟨[[none]], 1, 1⟩,
   ⟨0, 0⟩, 0, none, true⟩

/-- States of a `BoardManager` reachable from the constructor by any
sequence of `initBoard` (failed calls included — they still assign the
dimensions), `removeCard`, `removeCardPair` and `restoreFromState`. -/
inductive ReachableBM : BoardManager → Prop
  | init : ReachableBM BoardManager.new
  | boardInit (rows cols : Nat) (cards : List WordCard) (draws : Nat → Nat)
      (m : BoardManager) : ReachableBM m →
      ReachableBM (initBoard rows cols cards draws m).2
  | remove (row col : Int) (m : BoardManager) : ReachableBM m →
      ReachableBM (removeCard row col m)
  | removePair (pos1 pos2 : Pos) (m : BoardManager) : ReachableBM m →
      ReachableBM (removeCardPair pos1 pos2 m)
  | restore (s : BoardState) (m : BoardManager) : ReachableBM m →
      ReachableBM (restoreFromState s m)

/-! # Theorems -/

/-! ## Session statistics (C7) -/

theorem validateStats_new : validateStats GameStatsManager.new = true := by decide

theorem validateStats_record (m : GameStatsManager) (w mn : String) (b : Bool) (t : Int)
    (h : validateStats m = true) : validateStats (recordMatch w mn b t m) = true := by
  simp only [validateStats, recordMatch, calculateStatsFromHistory, List.foldl_append,
    List.foldl_cons, List.foldl_nil, Bool.and_eq_true, beq_iff_eq] at h ⊢
  obtain ⟨h1, h2⟩ := h
  cases b <;> simp [h1, h2]

theorem validateStats_applyRecords (ops : List (String × String × Bool × Int)) :
    ∀ m : GameStatsManager, validateStats m = true →
      validateStats (applyRecords ops m) = true := by
  induction ops with
  | nil => intro m h; exact h
  | cons op rest ih =>
    intro m h
    simpa only [applyRecords, List.foldl_cons] using
      ih _ (validateStats_record m op.1 op.2.1 op.2.2.1 op.2.2.2 h)

/-- Claim C7: after every sequence of `recordMatch` calls on a fresh
`GameStatsManager`, the incrementally maintained `score.correct` and
`score.wrong` equal the counts recomputed by replaying `matchHistory`
(`calculateStatsFromHistory`), so `validateStats` returns `true` in every
reachable state. -/
theorem statsAccuracy (ops : List (String × String × Bool × Int)) :
    validateStats (applyRecords ops GameStatsManager.new) = true :=
  validateStats_applyRecords ops GameStatsManager.new validateStats_new

/-! ## Difficulty adjustment (C8) -/

theorem calcAdjAux_runMachine (l : List (Bool × Int)) :
    ∀ cc cw : Nat, ∀ t : Int,
      calcAdjAux (l.map Prod.fst) cc cw =
        firstAdjustment (runMachine ⟨cc, cw, t⟩ l) := by
  induction l with
  | nil => intro cc cw t; rfl
  | cons p rest ih =>
    intro cc cw t
    obtain ⟨b, tm⟩ := p
    cases b with
    | false =>
      by_cases hcw : CONSECUTIVE_THRESHOLD ≤ cw + 1
      · simp [calcAdjAux, runMachine, recordMatchResult, handleWrongMatch, hcw,
          firstAdjustment]
      · simp only [List.map_cons, calcAdjAux, runMachine, recordMatchResult,
          handleWrongMatch, hcw, if_false, if_neg, firstAdjustment, if_true]
        simpa [calcAdjAux, hcw, firstAdjustment] using ih 0 (cw + 1) tm
    | true =>
      by_cases hcc : CONSECUTIVE_THRESHOLD ≤ cc + 1
      · simp [calcAdjAux, runMachine, recordMatchResult, handleCorrectMatch, hcc,
          firstAdjustment]
      · simp only [List.map_cons, calcAdjAux, runMachine, recordMatchResult,
          handleCorrectMatch, hcc, if_false, if_neg, firstAdjustment, if_true]
        simpa [calcAdjAux, hcc, firstAdjustment] using ih (cc + 1) 0 tm

/-- Claim C8: for every finite list of outcomes (first components; the
second components are the `Date.now()` values seen by the incremental
machine), the batch helper `calculateAdjustmentFromSequence` returns
exactly the first non-`none` adjustment that `recordMatchResult`, folded
over the same list from a fresh state with both counters zero, emits — or
`none` when the incremental machine never triggers. -/
theorem batchMatchesIncremental (l : List (Bool × Int)) (t : Int) :
    calculateAdjustmentFromSequence (l.map Prod.fst) =
      firstAdjustment (runMachine ⟨0, 0, t⟩ l) :=
  calcAdjAux_runMachine l 0 0 t

/-! ## Match evaluation (C2) -/

/-- Claim C2: `evaluateMatch` succeeds exactly when a path exists and the
cards share a `pairId` with different types; it returns a
content-mismatch failure carrying the found path exactly when a path
exists and the content condition fails; it returns an invalid-path
failure exactly when no path exists; and the three outcomes are
exhaustive and mutually exclusive, content never deciding when no path
exists. -/
theorem matchCorrectness (card1 card2 : WordCard) (pos1 pos2 : Pos) (board : BoardState) :
    ((evaluateMatch card1 card2 pos1 pos2 board).success = true ↔
      ((findPath pos1 pos2 board).isSome = true ∧
        card1.pairId = card2.pairId ∧ card1.type ≠ card2.type)) ∧
    ((evaluateMatch card1 card2 pos1 pos2 board).failureReason =
        some MatchFailureReason.content_mismatch ↔
      ((findPath pos1 pos2 board).isSome = true ∧
        ¬(card1.pairId = card2.pairId ∧ card1.type ≠ card2.type))) ∧
    ((evaluateMatch card1 card2 pos1 pos2 board).failureReason =
        some MatchFailureReason.invalid_path ↔
      findPath pos1 pos2 board = none) ∧
    ((evaluateMatch card1 card2 pos1 pos2 board).failureReason =
        some MatchFailureReason.content_mismatch →
      (evaluateMatch card1 card2 pos1 pos2 board).path = findPath pos1 pos2 board) ∧
    ((evaluateMatch card1 card2 pos1 pos2 board).success = true →
      (evaluateMatch card1 card2 pos1 pos2 board).path = findPath pos1 pos2 board) ∧
    ((evaluateMatch card1 card2 pos1 pos2 board).success = true ↔
      (evaluateMatch card1 card2 pos1 pos2 board).failureReason = none) ∧
    ((evaluateMatch card1 card2 pos1 pos2 board).success = true ∨
      (evaluateMatch card1 card2 pos1 pos2 board).failureReason =
        some MatchFailureReason.content_mismatch ∨
      (evaluateMatch card1 card2 pos1 pos2 board).failureReason =
        some MatchFailureReason.invalid_path) := by
  cases hfp : findPath pos1 pos2 board with
  | none =>
    simp [evaluateMatch, hfp]
  | some p =>
    by_cases h1 : card1.pairId = card2.pairId <;>
      by_cases h2 : card1.type = card2.type <;>
        simp [evaluateMatch, hfp, isContentMatch, h1, h2]

theorem matchCorrectness_witness :
    (evaluateMatch sampleCard sampleCard2 ⟨0, 0⟩ ⟨0, 1⟩ sampleBoard).success = true ∧
    (evaluateMatch sampleCard sampleCard2 ⟨0, 0⟩ ⟨0, 1⟩ sampleBoard).path =
      findPath ⟨0, 0⟩ ⟨0, 1⟩ sampleBoard := by
  have h := matchCorrectness sampleCard sampleCard2 ⟨0, 0⟩ ⟨0, 1⟩ sampleBoard
  have hs : (evaluateMatch sampleCard sampleCard2 ⟨0, 0⟩ ⟨0, 1⟩ sampleBoard).success = true :=
    h.1.mpr ⟨by decide, rfl, by decide⟩
  exact ⟨hs, h.2.2.2.2.1 hs⟩

/-! ## Board initialization (C4) -/

/-- Counterexample to claim C4 as stated: a 1 by 3 board (odd cell count)
with exactly three cards is accepted by `initBoard` — the only check is
`cards.length = rows*cols`, so an odd cell count does not fail. -/
theorem initBoard_oddBoardAccepted :
    (initBoard 1 3 [sampleCard, sampleCard2, sampleCard3]
        (fun _ => 0) BoardManager.new).1 = Except.ok () ∧
    (initBoard 1 3 [sampleCard, sampleCard2, sampleCard3]
        (fun _ => 0) BoardManager.new).2.remainingCards = 3 ∧
    ¬ 2 ∣ 1 * 3 := by
  refine ⟨rfl, rfl, by decide⟩

/-- Claim C4, amended: `initBoard` fails exactly when the card count
differs from `rows*cols`; an odd cell count with a matching card count is
accepted rather than rejected. -/
theorem initBoard_fail_iff (rows cols : Nat) (cards : List WordCard)
    (draws : Nat → Nat) (m : BoardManager) :
    (∃ msg, (initBoard rows cols cards draws m).1 = Except.error msg) ↔
      cards.length ≠ rows * cols := by
  by_cases h : cards.length ≠ rows * cols <;> simp [initBoard, h]

/-! ## Tile removal and the board counter (C9, C10) -/

theorem getCell_some_bounds {grid : List (List (Option WordCard))} {row col : Int}
    {card : WordCard} (h : getCell grid row col = some card) :
    0 ≤ row ∧ 0 ≤ col ∧ ∃ rowl, grid.get? row.toNat = some rowl ∧
      rowl.get? col.toNat = some (some card) := by
  unfold getCell at h
  split at h
  · next hb =>
    refine ⟨hb.1, hb.2, ?_⟩
    simp only [List.get?_eq_getElem?] at h ⊢
    cases hr : grid[row.toNat]? with
    | none => rw [hr] at h; simp at h
    | some rowl =>
      rw [hr] at h
      simp only [Option.getD_some] at h
      cases hc : rowl[col.toNat]? with
      | none => rw [hc] at h; simp at h
      | some v =>
        rw [hc] at h
        simp only [Option.getD_some] at h
        exact ⟨rowl, rfl, by rw [hc, h]⟩
  · exact absurd h (by simp)

theorem getCell_setCell_self {grid : List (List (Option WordCard))} {row col : Int}
    {card : WordCard} (h : getCell grid row col = some card) :
    getCell (setCell grid row col none) row col = none := by
  obtain ⟨hr0, hc0, rowl, hrow, hcol⟩ := getCell_some_bounds h
  simp only [List.get?_eq_getElem?] at hrow hcol
  have hrn : row.toNat < grid.length := by
    by_contra hlt
    rw [List.getElem?_eq_none (by omega)] at hrow
    exact Option.noConfusion hrow
  have hcn : col.toNat < rowl.length := by
    by_contra hlt
    rw [List.getElem?_eq_none (by omega)] at hcol
    exact Option.noConfusion hcol
  unfold setCell getCell
  rw [if_pos ⟨hr0, hc0⟩, if_pos ⟨hr0, hc0⟩]
  simp only [List.get?_eq_getElem?, hrow, Option.getD_some]
  rw [List.getElem?_set_self hrn]
  simp [List.getElem?_set_self hcn]

theorem getCell_setCell_other {grid : List (List (Option WordCard))} {row col : Int}
    (r c : Int) (hne : ¬(r = row ∧ c = col)) :
    getCell (setCell grid row col none) r c = getCell grid r c := by
  unfold setCell
  by_cases hrc : 0 ≤ row ∧ 0 ≤ col
  · rw [if_pos hrc]
    unfold getCell
    by_cases hrc2 : 0 ≤ r ∧ 0 ≤ c
    · rw [if_pos hrc2, if_pos hrc2]
      simp only [List.get?_eq_getElem?]
      by_cases hr : row.toNat = r.toNat
      · have hreq : r = row := by omega
        subst hreq
        have hc : c ≠ col := fun hc => hne ⟨rfl, hc⟩
        have hcn : col.toNat ≠ c.toNat := by omega
        by_cases hrn : r.toNat < grid.length
        · rw [List.getElem?_set_self hrn]
          cases hrow : grid[r.toNat]? with
          | none =>
            have := List.getElem?_eq_none_iff.mp hrow
            omega
          | some rowl =>
            simp only [hrow, Option.map_some, Option.getD_some,
              List.getElem?_set_ne hcn]
        · rw [List.set_eq_of_length_le (by omega)]
      · rw [List.getElem?_set_ne hr]
    · rw [if_neg hrc2, if_neg hrc2]
  · rw [if_neg hrc]

theorem countP_set_of_get {α : Type} (p : α → Bool) (l : List α) :
    ∀ (i : Nat) (a b : α), l.get? i = some a →
      (l.set i b).countP p + (if p a then 1 else 0) =
        l.countP p + (if p b then 1 else 0) := by
  induction l with
  | nil => intro i a b h; simp at h
  | cons x xs ih =>
    intro i a b h
    cases i with
    | zero =>
      simp only [List.get?] at h
      injection h with h
      subst h
      simp only [List.set, List.countP_cons]
      omega
    | succ i =>
      simp only [List.get?] at h
      have := ih i a b h
      simp only [List.set, List.countP_cons]
      omega

theorem sum_map_set_of_get {α : Type} (f : α → Nat) (l : List α) :
    ∀ (i : Nat) (a b : α), l.get? i = some a →
      ((l.set i b).map f).sum + f a = (l.map f).sum + f b := by
  induction l with
  | nil => intro i a b h; simp at h
  | cons x xs ih =>
    intro i a b h
    cases i with
    | zero =>
      simp only [List.get?] at h
      injection h with h
      subst h
      simp only [List.set, List.map_cons, List.sum_cons]
      omega
    | succ i =>
      simp only [List.get?] at h
      have := ih i a b h
      simp only [List.set, List.map_cons, List.sum_cons]
      omega

theorem countCards_setCell {grid : List (List (Option WordCard))} {row col : Int}
    {card : WordCard} (h : getCell grid row col = some card) :
    countCards (setCell grid row col none) + 1 = countCards grid := by
  obtain ⟨hr0, hc0, rowl, hrow, hcol⟩ := getCell_some_bounds h
  unfold setCell countCards
  rw [if_pos ⟨hr0, hc0⟩, hrow]
  simp only [Option.getD_some]
  have hsum := sum_map_set_of_get (fun r => r.countP (fun c => c.isSome)) grid
    row.toNat rowl (rowl.set col.toNat none) hrow
  have hrowcnt := countP_set_of_get (fun c => c.isSome) rowl col.toNat
    (some card) none hcol
  norm_num [Option.isSome_some, Option.isSome_none] at hrowcnt
  beta_reduce at hsum
  omega

/-- Claim C9: `removeCard` on an already-empty or out-of-bounds cell is a
no-op (grid and counter unchanged); on an occupied in-bounds cell it
clears exactly that cell and decrements the counter by exactly one; and
`removeCardPair` is two such removals in sequence. -/
theorem tileRemoval (m : BoardManager) (row col : Int) :
    (¬(isValidPosition m row col = true ∧ getCell m.grid row col ≠ none) →
      removeCard row col m = m) ∧
    (∀ card, getCell m.grid row col = some card → isValidPosition m row col = true →
      ((removeCard row col m).remainingCards = m.remainingCards - 1 ∧
       (removeCard row col m).rows = m.rows ∧
       (removeCard row col m).cols = m.cols ∧
       ∀ r c : Int, getCell (removeCard row col m).grid r c =
         if r = row ∧ c = col then none else getCell m.grid r c)) ∧
    (∀ pos1 pos2 : Pos, removeCardPair pos1 pos2 m =
      removeCard pos2.row pos2.col (removeCard pos1.row pos1.col m)) := by
  refine ⟨?_, ?_, fun pos1 pos2 => rfl⟩
  · intro h
    unfold removeCard
    rw [if_neg h]
  · intro card hcard hvalid
    have hcond : isValidPosition m row col = true ∧ getCell m.grid row col ≠ none :=
      ⟨hvalid, by simp [hcard]⟩
    unfold removeCard
    rw [if_pos hcond]
    refine ⟨rfl, rfl, rfl, fun r c => ?_⟩
    by_cases heq : r = row ∧ c = col
    · rw [if_pos heq, heq.1, heq.2]
      exact getCell_setCell_self hcard
    · rw [if_neg heq]
      exact getCell_setCell_other r c heq

theorem tileRemoval_witness :
    (removeCard 0 0 ⟨[[some sampleCard]], 1, 1, 1⟩).remainingCards = 1 - 1 ∧
    getCell (removeCard 0 0 ⟨[[some sampleCard]], 1, 1, 1⟩).grid 0 0 = none ∧
    removeCard 1 1 ⟨[[some sampleCard]], 1, 1, 1⟩ = ⟨[[some sampleCard]], 1, 1, 1⟩ := by
  have h := tileRemoval ⟨[[some sampleCard]], 1, 1, 1⟩ 0 0
  have h2 := (h.2.1 sampleCard rfl (by decide))
  refine ⟨h2.1, ?_, ?_⟩
  · have := h2.2.2.2 0 0
    simpa using this
  · exact (tileRemoval ⟨[[some sampleCard]], 1, 1, 1⟩ 1 1).1 (by decide)

theorem listSwap_length {α : Type} (l : List α) (i j : Nat) :
    (listSwap l i j).length = l.length := by
  unfold listSwap
  cases l.get? i <;> cases l.get? j <;> simp

theorem shuffleAux_length {α : Type} (draws : Nat → Nat) :
    ∀ (i : Nat) (l : List α), (shuffleAux draws i l).length = l.length := by
  intro i
  induction i with
  | zero => intro l; rfl
  | succ i ih => intro l; rw [shuffleAux, ih, listSwap_length]

theorem shuffleCards_length {α : Type} (draws : Nat → Nat) (cards : List α) :
    (shuffleCards draws cards).length = cards.length :=
  shuffleAux_length draws _ cards

theorem countCards_initGrid (rows cols : Nat) (shuffled : List WordCard)
    (hlen : shuffled.length = rows * cols) :
    countCards ((List.range rows).map (fun r =>
      (List.range cols).map (fun c => shuffled.get? (r * cols + c)))) = rows * cols := by
  unfold countCards
  rw [List.map_map]
  have hrow : ∀ r ∈ List.range rows,
      ((fun row => row.countP (fun c => c.isSome)) ∘ fun r =>
        (List.range cols).map (fun c => shuffled.get? (r * cols + c))) r = cols := by
    intro r hr
    have hrlt : r < rows := List.mem_range.mp hr
    simp only [Function.comp]
    rw [List.countP_eq_length.mpr, List.length_map, List.length_range]
    intro a ha
    obtain ⟨c, hc, hac⟩ := List.mem_map.mp ha
    have hclt : c < cols := List.mem_range.mp hc
    have hidx : r * cols + c < shuffled.length := by
      rw [hlen]
      calc r * cols + c < r * cols + cols := by omega
        _ = (r + 1) * cols := by ring
        _ ≤ rows * cols := Nat.mul_le_mul_right cols (by omega)
    rw [← hac]
    simp [List.get?_eq_getElem?, List.getElem?_eq_getElem hidx]
  rw [List.map_congr_left hrow]
  simp [List.map_const', List.sum_replicate, smul_eq_mul]

theorem countCards_eq_zero_iff (grid : List (List (Option WordCard))) :
    countCards grid = 0 ↔ gridAllNull grid = true := by
  unfold countCards gridAllNull
  rw [List.sum_eq_zero_iff, List.all_eq_true]
  constructor
  · intro h row hrow
    have := h (row.countP (fun c => c.isSome)) (List.mem_map.mpr ⟨row, hrow, rfl⟩)
    rw [List.all_eq_true]
    intro c hc
    have hz := List.countP_eq_zero.mp this c hc
    cases c <;> simp_all
  · intro h x hx
    obtain ⟨row, hrow, hxeq⟩ := List.mem_map.mp hx
    subst hxeq
    rw [List.countP_eq_zero]
    intro c hc
    have := List.all_eq_true.mp (h row hrow) c hc
    cases c <;> simp_all

theorem bmInv_removeCard (row col : Int) (m : BoardManager)
    (h : m.remainingCards = (countCards m.grid : Int)) :
    (removeCard row col m).remainingCards = (countCards (removeCard row col m).grid : Int) := by
  unfold removeCard
  split
  · next hcond =>
    obtain ⟨hvalid, hne⟩ := hcond
    obtain ⟨card, hcard⟩ := Option.ne_none_iff_exists'.mp hne
    have := countCards_setCell hcard
    simp only
    omega
  · exact h

theorem bmInv_initBoard (rows cols : Nat) (cards : List WordCard) (draws : Nat → Nat)
    (m : BoardManager) (h : m.remainingCards = (countCards m.grid : Int)) :
    (initBoard rows cols cards draws m).2.remainingCards =
      (countCards (initBoard rows cols cards draws m).2.grid : Int) := by
  unfold initBoard
  by_cases hc : cards.length ≠ rows * cols
  · rw [if_pos hc]
    exact h
  · rw [if_neg hc]
    push_neg at hc
    have hlen : (shuffleCards draws cards).length = rows * cols := by
      rw [shuffleCards_length, hc]
    dsimp only
    rw [countCards_initGrid rows cols _ hlen]

/-- Claim C10: in every reachable `BoardManager` state, the
`remainingCards` counter equals the number of non-null grid cells, and
`isGameComplete` holds exactly when every grid cell is null. -/
theorem boardCounterInvariant (m : BoardManager) (h : ReachableBM m) :
    m.remainingCards = (countCards m.grid : Int) ∧
    (isGameComplete m = true ↔ gridAllNull m.grid = true) := by
  have hinv : m.remainingCards = (countCards m.grid : Int) := by
    induction h with
    | init => rfl
    | boardInit rows cols cards draws m _ ih => exact bmInv_initBoard rows cols cards draws m ih
    | remove row col m _ ih => exact bmInv_removeCard row col m ih
    | removePair pos1 pos2 m _ ih =>
      exact bmInv_removeCard _ _ _ (bmInv_removeCard _ _ _ ih)
    | restore s m _ _ => rfl
  refine ⟨hinv, ?_⟩
  rw [← countCards_eq_zero_iff]
  unfold isGameComplete
  rw [hinv]
  constructor
  · intro hb
    have : (countCards m.grid : Int) = 0 := by
      have := beq_iff_eq.mp hb
      omega
    omega
  · intro hz
    rw [hz]
    simp

theorem boardCounterInvariant_witness :
    (removeCard 0 0 (initBoard 1 1 [sampleCard] (fun _ => 0) BoardManager.new).2).remainingCards =
      (countCards (removeCard 0 0 (initBoard 1 1 [sampleCard] (fun _ => 0) BoardManager.new).2).grid : Int) :=
  (boardCounterInvariant _ (ReachableBM.remove 0 0 _
    (ReachableBM.boardInit 1 1 [sampleCard] (fun _ => 0) _ ReachableBM.init))).1

/-! ## Serialization round-trip (C3, C5) -/

theorem validateWordCard_encode (c : WordCard) (r cc : Nat) :
    validateWordCard (encodeCard c) r cc = Except.ok c := by
  obtain ⟨i, w, mn, h, ty, pid, conf⟩ := c
  cases conf <;> cases ty <;> rfl

theorem bindOk {eps a b : Type} (x : a) (f : a → Except eps b) :
    (Except.ok x : Except eps a) >>= f = f x := rfl

theorem validateRow_encode (r : Nat) :
    ∀ (row : List (Option WordCard)) (c : Nat),
      validateRow r (row.map encodeCell) c = Except.ok row := by
  intro row
  induction row with
  | nil => intro c; rfl
  | cons cell rest ih =>
    intro c
    cases cell with
    | none =>
      simp only [List.map_cons, encodeCell, validateRow, ih]
      rfl
    | some card =>
      obtain ⟨i, w, mn, h, ty, pid, conf⟩ := card
      cases conf <;> cases ty <;>
        simp only [List.map_cons, encodeCell, validateRow, ih] <;> rfl

theorem validateGrid_encode (cols : Nat) :
    ∀ (g : List (List (Option WordCard))) (r : Nat),
      (∀ row ∈ g, row.length = cols) →
      validateGrid (cols : Rat)
        (g.map (fun row => JValue.jarr (row.map encodeCell))) r = Except.ok g := by
  intro g
  induction g with
  | nil => intro r _; rfl
  | cons row rest ih =>
    intro r hlen
    have hrow : row.length = cols := hlen row (by simp)
    have hcells : ¬(((row.map encodeCell).length : Rat) ≠ (cols : Rat)) := by
      rw [List.length_map, hrow]
      simp
    simp only [List.map_cons, validateGrid, bindOk]
    rw [if_neg hcells]
    simp only [validateRow_encode, bindOk,
      ih (r + 1) (fun rw hrw => hlen rw (by simp [hrw]))]

theorem requirePositiveNum_ok (q : Rat) (h : ¬q ≤ 0) (msg : String) :
    requirePositiveNum (some (JValue.jnum q)) msg = Except.ok q := by
  simp [requirePositiveNum, h]

theorem requireNonnegInt_ok (q : Rat) (h : ¬(q < 0 ∨ q.den ≠ 1)) (msg : String) :
    requireNonnegInt (some (JValue.jnum q)) msg = Except.ok q := by
  simp only [requireNonnegInt, if_neg h]

theorem requireIntNonneg_ok (q : Rat) (h : ¬(q.den ≠ 1 ∨ q < 0)) (msg : String) :
    requireIntNonneg (some (JValue.jnum q)) msg = Except.ok q := by
  simp only [requireIntNonneg, if_neg h]

theorem requireNonnegNum_ok (q : Rat) (h : ¬q < 0) (msg : String) :
    requireNonnegNum (some (JValue.jnum q)) msg = Except.ok q := by
  simp only [requireNonnegNum, if_neg h]

theorem validateBoardState_encode (b : BoardState)
    (hrows : 0 < b.rows) (hcols : 0 < b.cols)
    (hglen : b.grid.length = b.rows)
    (hrlen : ∀ row ∈ b.grid, row.length = b.cols) :
    validateBoardState (some (encodeBoard b)) = Except.ok b := by
  have hrpos : ¬((b.rows : Rat) ≤ 0) := by
    simp only [not_le]
    exact_mod_cast hrows
  have hcpos : ¬((b.cols : Rat) ≤ 0) := by
    simp only [not_le]
    exact_mod_cast hcols
  have hglen2 : ¬(((b.grid.map (fun row => JValue.jarr (row.map encodeCell))).length : Rat) ≠
      (b.rows : Rat)) := by
    rw [List.length_map, hglen]
    simp
  simp only [validateBoardState, encodeBoard, Option.some_bind, asObject, jget,
    List.find?, String.reduceEq, decide_True, decide_False, Option.map_some', Option.map_some,
    requirePositiveNum_ok _ hrpos, requirePositiveNum_ok _ hcpos, bindOk]
  rw [if_neg hglen2]
  simp only [bindOk, validateGrid_encode b.cols b.grid 0 hrlen]
  obtain ⟨grid, rows, cols⟩ := b
  simp [Rat.num_natCast]

theorem validateGameConfig_encode (c : GameConfig)
    (hrows : 0 < c.boardSize.rows) (hcols : 0 < c.boardSize.cols) :
    validateGameConfig (some (encodeConfig c)) = Except.ok c := by
  obtain ⟨lang, level, theme, ⟨brows, bcols⟩⟩ := c
  simp only at hrows hcols
  have hrpos : ¬(brows ≤ 0) := not_le.mpr hrows
  have hcpos : ¬(bcols ≤ 0) := not_le.mpr hcols
  cases lang <;> cases level <;>
    simp only [validateGameConfig, encodeConfig, Option.some_bind, asObject, jget,
      List.find?, String.reduceEq, decide_True, decide_False, Option.map_some', bindOk,
      requirePositiveNum_ok _ hrpos, requirePositiveNum_ok _ hcpos]

theorem validateGameScore_encode (g : GameScore) :
    validateGameScore (some (JValue.jobj
      [("correct", JValue.jnum (g.correct : Rat)),
       ("wrong", JValue.jnum (g.wrong : Rat))])) = Except.ok g := by
  have h1 : ¬(((g.correct : Rat)) < 0 ∨ ((g.correct : Rat)).den ≠ 1) := by
    push_neg
    exact ⟨by positivity, by simp [Rat.den_natCast]⟩
  have h2 : ¬(((g.wrong : Rat)) < 0 ∨ ((g.wrong : Rat)).den ≠ 1) := by
    push_neg
    exact ⟨by positivity, by simp [Rat.den_natCast]⟩
  simp only [validateGameScore, Option.some_bind, asObject, jget, List.find?,
    String.reduceEq, decide_True, decide_False, Option.map_some', bindOk,
    requireNonnegInt_ok _ h1, requireNonnegInt_ok _ h2]
  obtain ⟨gc, gw⟩ := g
  simp [Rat.num_natCast]

theorem validateSelectedCard_encode :
    ∀ sel : Option Pos,
      (∀ p, sel = some p → 0 ≤ p.row ∧ 0 ≤ p.col) →
      validateSelectedCard (some (match sel with
        | none => JValue.jnull
        | some p => JValue.jobj
            [("row", JValue.jnum (p.row : Rat)), ("col", JValue.jnum (p.col : Rat))])) =
        Except.ok sel := by
  intro sel hsel
  cases sel with
  | none => rfl
  | some p =>
    obtain ⟨hr, hc⟩ := hsel p rfl
    have h1 : ¬(((p.row : Rat)).den ≠ 1 ∨ ((p.row : Rat)) < 0) := by
      push_neg
      exact ⟨by simp [Rat.den_intCast], by exact_mod_cast hr⟩
    have h2 : ¬(((p.col : Rat)).den ≠ 1 ∨ ((p.col : Rat)) < 0) := by
      push_neg
      exact ⟨by simp [Rat.den_intCast], by exact_mod_cast hc⟩
    simp only [validateSelectedCard, Option.some_bind, asObject, jget, List.find?,
      String.reduceEq, decide_True, decide_False, Option.map_some', bindOk,
      requireIntNonneg_ok _ h1, requireIntNonneg_ok _ h2]
    obtain ⟨prow, pcol⟩ := p
    simp [Rat.num_intCast]

theorem deserialize_serialize_of_valid (s : GameState) (h : validGameState s = true) :
    deserializeGameState (serializeGameState s) = Except.ok s := by
  simp only [validGameState, Bool.and_eq_true, decide_eq_true_eq, beq_iff_eq,
    List.all_eq_true] at h
  obtain ⟨⟨⟨⟨⟨⟨⟨hbr, hbc⟩, hrows⟩, hcols⟩, hglen⟩, hrlen⟩, het⟩, hsel⟩ := h
  have hel : ¬(s.elapsedTime < 0) := not_lt.mpr het
  have hselgood : ∀ p, s.selectedCard = some p → 0 ≤ p.row ∧ 0 ≤ p.col := by
    intro p hp
    rw [hp] at hsel
    simp only [Bool.and_eq_true, decide_eq_true_eq] at hsel
    exact hsel
  simp only [deserializeGameState, serializeGameState, validateAndRestoreGameState,
    asObject, jget, List.find?, String.reduceEq, decide_True, decide_False,
    Option.map_some', bindOk,
    validateGameConfig_encode s.config hbr hbc,
    validateBoardState_encode s.board hrows hcols hglen hrlen,
    validateGameScore_encode s.score,
    requireNonnegNum_ok _ hel,
    validateSelectedCard_encode s.selectedCard hselgood]

theorem areWordCardsEqual_refl (c : WordCard) : areWordCardsEqual c c = true := by
  simp [areWordCardsEqual]

theorem cellsEqual_refl (c : Option WordCard) : cellsEqual c c = true := by
  cases c with
  | none => rfl
  | some card => exact areWordCardsEqual_refl card

theorem areGameStatesEqual_refl (s : GameState) : areGameStatesEqual s s = true := by
  unfold areGameStatesEqual
  simp only [Bool.and_eq_true, beq_self_eq_true, List.all_eq_true, and_true, true_and]
  constructor
  · intro r hr c hc
    exact cellsEqual_refl _
  · cases s.selectedCard <;> simp

/-- Claim C3: deserialising the serialised form of any game state that
satisfies the codec's field constraints succeeds and yields a state that
is field-equal to the original under `areGameStatesEqual`, null grid
cells and the optional `confuse` field included. -/
theorem serializationRoundTrip (s : GameState) (h : validGameState s = true) :
    ∃ s', deserializeGameState (serializeGameState s) = Except.ok s' ∧
      areGameStatesEqual s s' = true :=
  ⟨s, deserialize_serialize_of_valid s h, areGameStatesEqual_refl s⟩

theorem serializationRoundTrip_witness :
    validGameState sampleState = true ∧
    (∃ s', deserializeGameState (serializeGameState sampleState) = Except.ok s' ∧
      areGameStatesEqual sampleState s' = true) :=
  ⟨by decide, serializationRoundTrip sampleState (by decide)⟩

/-- Counterexample to claim C5 as stated: an input whose `config.theme`
is the empty string and whose other fields are valid is accepted —
deserialisation succeeds instead of failing with a validation error,
because the codec only checks that the theme is a string. -/
theorem emptyTheme_accepted :
    emptyThemeState.config.theme = "" ∧
    deserializeGameState (serializeGameState emptyThemeState) =
      Except.ok emptyThemeState :=
  ⟨rfl, deserialize_serialize_of_valid emptyThemeState (by decide)⟩

/-- Claim C5, amended: the codec only requires `config.theme` to be a
string — an input object whose `config.theme` is the empty string (all
other fields valid) deserialises successfully to the same state, and no
error is raised. -/
theorem emptyTheme_roundTrip (s : GameState) (h : validGameState s = true)
    (_htheme : s.config.theme = "") :
    deserializeGameState (serializeGameState s) = Except.ok s :=
  deserialize_serialize_of_valid s h

theorem emptyTheme_roundTrip_witness :
    validGameState emptyThemeState = true ∧
    emptyThemeState.config.theme = "" ∧
    deserializeGameState (serializeGameState emptyThemeState) =
      Except.ok emptyThemeState :=
  ⟨by decide, rfl, emptyTheme_roundTrip emptyThemeState (by decide) rfl⟩

/-! ## Path search: walk lemmas (C1, C6) -/

theorem posAlong_ne_nil (s : Pos) (ds : List Nat) : posAlong s ds ≠ [] := by
  cases ds <;> simp [posAlong]

theorem posAlong_length (s : Pos) : ∀ ds : List Nat, (posAlong s ds).length = ds.length + 1 := by
  intro ds
  induction ds generalizing s with
  | nil => rfl
  | cons d ds ih => simp [posAlong, ih]

theorem posAlong_head (s : Pos) (ds : List Nat) : (posAlong s ds).head? = some s := by
  cases ds <;> rfl

theorem endPosOf_nil (s : Pos) : endPosOf s [] = s := rfl

theorem endPosOf_cons (s : Pos) (d : Nat) (ds : List Nat) :
    endPosOf s (d :: ds) = endPosOf (stepPos s d) ds := rfl

theorem endPosOf_append (s : Pos) (xs ys : List Nat) :
    endPosOf s (xs ++ ys) = endPosOf (endPosOf s xs) ys := by
  unfold endPosOf
  rw [List.foldl_append]

theorem endPosOf_snoc (s : Pos) (xs : List Nat) (d : Nat) :
    endPosOf s (xs ++ [d]) = stepPos (endPosOf s xs) d := by
  rw [endPosOf_append]
  rfl

theorem posAlong_append (s : Pos) :
    ∀ (xs ys : List Nat), posAlong s (xs ++ ys) =
      posAlong s xs ++ (posAlong (endPosOf s xs) ys).drop 1 := by
  intro xs
  induction xs generalizing s with
  | nil =>
    intro ys
    simp only [List.nil_append, posAlong, endPosOf_nil]
    cases ys with
    | nil => rfl
    | cons d ds => simp [posAlong]
  | cons d ds ih =>
    intro ys
    simp only [List.cons_append, posAlong, List.append_eq, ih (stepPos s d) ys,
      endPosOf_cons]

theorem posAlong_snoc (s : Pos) (xs : List Nat) (d : Nat) :
    posAlong s (xs ++ [d]) = posAlong s xs ++ [stepPos (endPosOf s xs) d] := by
  rw [posAlong_append]
  rfl

theorem posAlong_getLast (s : Pos) :
    ∀ ds : List Nat, (posAlong s ds).getLast? = some (endPosOf s ds) := by
  intro ds
  induction ds generalizing s with
  | nil => rfl
  | cons d ds ih =>
    simp only [posAlong, endPosOf_cons]
    rw [List.getLast?_cons, ih (stepPos s d)]
    simp [Option.or]

theorem dirChanges_cons (a : Nat) (l : List Nat) :
    dirChanges (a :: l) =
      (match l.head? with
       | some b => if a ≠ b then 1 else 0
       | none => 0) + dirChanges l := by
  cases l <;> rfl

theorem dirChanges_prefix_le (xs : List Nat) :
    ∀ ys : List Nat, dirChanges xs ≤ dirChanges (xs ++ ys) := by
  induction xs with
  | nil => intro ys; simp [dirChanges]
  | cons a l ih =>
    intro ys
    rw [List.cons_append, dirChanges_cons, dirChanges_cons a (l ++ ys)]
    cases l with
    | nil => simp [dirChanges]
    | cons b t =>
      simp only [List.cons_append, List.head?_cons]
      exact Nat.add_le_add_left (ih ys) _

theorem dirChanges_snoc (d : Nat) :
    ∀ (xs : List Nat), xs ≠ [] →
      dirChanges (xs ++ [d]) =
        dirChanges xs + (if xs.getLast? = some d then 0 else 1) := by
  intro xs
  induction xs with
  | nil => intro h; exact absurd rfl h
  | cons a l ih =>
    intro _
    cases l with
    | nil =>
      by_cases h : a = d
      · subst h
        simp [dirChanges]
      · simp [dirChanges, h]
    | cons b t =>
      have hne : (b :: t : List Nat) ≠ [] := by simp
      rw [List.cons_append, dirChanges_cons, dirChanges_cons a (b :: t), ih hne]
      simp only [List.cons_append, List.head?_cons, List.getLast?_cons_cons]
      omega

theorem mem_dirRange (d : Nat) : d < 4 ↔ d ∈ ([0, 1, 2, 3] : List Nat) := by
  constructor
  · intro h
    interval_cases d <;> simp
  · intro h
    fin_cases h <;> omega

theorem stepPos_oppDir (p : Pos) (d : Nat) (h : d < 4) :
    stepPos (stepPos p d) (oppDir d) = p := by
  obtain ⟨pr, pc⟩ := p
  interval_cases d <;>
    simp [stepPos, oppDir, dirDelta, DIRECTIONS, Pos.mk.injEq]

theorem stepPos_eq_self_iff (p q : Pos) (d d' : Nat) (hd : d < 4) (hd' : d' < 4)
    (hq : q = stepPos p d) (hback : stepPos q d' = p) : d' = oppDir d := by
  subst hq
  obtain ⟨pr, pc⟩ := p
  interval_cases d <;> interval_cases d' <;>
    simp_all [stepPos, oppDir, dirDelta, DIRECTIONS, Pos.mk.injEq] <;> omega

theorem stepPos_inj (p : Pos) (d d' : Nat) (hd : d < 4) (hd' : d' < 4)
    (h : stepPos p d = stepPos p d') : d = d' := by
  obtain ⟨pr, pc⟩ := p
  interval_cases d <;> interval_cases d' <;>
    simp_all [stepPos, dirDelta, DIRECTIONS, Pos.mk.injEq]

theorem isPassable_range (row col : Int) (board : BoardState) (e : Pos)
    (h : isPassable row col board e = true) (hne : ¬(row = e.row ∧ col = e.col)) :
    -1 ≤ row ∧ row ≤ (board.rows : Int) ∧ -1 ≤ col ∧ col ≤ (board.cols : Int) := by
  unfold isPassable at h
  rw [if_neg hne] at h
  split at h
  · exact absurd h (by simp)
  · next hbox => push_neg at hbox; exact ⟨hbox.1, hbox.2.1, hbox.2.2.1, hbox.2.2.2⟩

theorem specPassable_iff (board : BoardState) (e p : Pos) :
    SpecPassable board e p ↔ isPassable p.row p.col board e = true := by
  unfold SpecPassable isPassable
  by_cases he : p.row = e.row ∧ p.col = e.col
  · rw [if_pos he]
    simp only [iff_true]
    left
    obtain ⟨p1, p2⟩ := p
    obtain ⟨e1, e2⟩ := e
    simp_all
  · rw [if_neg he]
    have hne : ¬(p = e) := by
      intro hp
      exact he (by rw [hp]; exact ⟨rfl, rfl⟩)
    split
    · next hout =>
      simp only [Bool.false_eq_true, iff_false]
      intro hsp
      rcases hsp with hp | hin | hring
      · exact hne hp
      · omega
      · omega
    · next hout =>
      push_neg at hout
      split
      · next hring =>
        simp only [eq_self_iff_true, iff_true]
        right; right
        exact ⟨⟨hout.1, hout.2.1, hout.2.2.1, hout.2.2.2⟩, by omega⟩
      · next hin =>
        push_neg at hin
        rw [Option.isNone_iff_eq_none]
        constructor
        · intro hsp
          rcases hsp with hp | hcell | hring
          · exact absurd hp hne
          · exact hcell.2.2.2.2
          · omega
        · intro hcell
          right; left
          exact ⟨by omega, by omega, by omega, by omega, hcell⟩

theorem innerPositions_nil (s : Pos) : innerPositions s [] = [] := rfl

theorem innerPositions_single (s : Pos) (d : Nat) : innerPositions s [d] = [] := rfl

theorem innerPositions_cons (s : Pos) (d : Nat) (ds : List Nat) (hds : ds ≠ []) :
    innerPositions s (d :: ds) = stepPos s d :: innerPositions (stepPos s d) ds := by
  unfold innerPositions
  simp only [posAlong, List.drop_succ_cons, List.drop_zero]
  cases ds with
  | nil => exact absurd rfl hds
  | cons b t =>
    simp only [posAlong]
    rw [List.dropLast_cons_of_ne_nil (posAlong_ne_nil _ _)]
    simp

theorem innerPositions_char (s : Pos) :
    ∀ (ds : List Nat) (p : Pos),
      p ∈ innerPositions s ds ↔
        ∃ k, 1 ≤ k ∧ k < ds.length ∧ endPosOf s (ds.take k) = p := by
  intro ds
  induction ds generalizing s with
  | nil =>
    intro p
    simp [innerPositions_nil]
  | cons d t ih =>
    intro p
    cases t with
    | nil =>
      simp [innerPositions_single]
      omega
    | cons b u =>
      rw [innerPositions_cons s d (b :: u) (by simp)]
      simp only [List.mem_cons, ih (stepPos s d) p]
      constructor
      · rintro (rfl | ⟨k, hk1, hk2, hk3⟩)
        · exact ⟨1, le_refl 1, by simp, by simp [endPosOf, stepPos]⟩
        · refine ⟨k + 1, by omega, by simp only [List.length_cons] at hk2 ⊢; omega, ?_⟩
          simp only [List.take_succ_cons, endPosOf_cons]
          exact hk3
      · rintro ⟨k, hk1, hk2, hk3⟩
        cases k with
        | zero => omega
        | succ k =>
          cases k with
          | zero =>
            left
            simp [endPosOf, stepPos] at hk3
            exact hk3.symm
          | succ k =>
            right
            refine ⟨k + 1, by omega, by simp at hk2 ⊢; omega, ?_⟩
            simpa [List.take_succ_cons, endPosOf_cons] using hk3

theorem prefixEnd_mem_inner (s : Pos) (pre suf : List Nat)
    (hpre : pre ≠ []) (hsuf : suf ≠ []) :
    endPosOf s pre ∈ innerPositions s (pre ++ suf) := by
  rw [innerPositions_char]
  refine ⟨pre.length, ?_, ?_, ?_⟩
  · cases pre with
    | nil => exact absurd rfl hpre
    | cons a l => simp
  · rw [List.length_append]
    cases suf with
    | nil => exact absurd rfl hsuf
    | cons a l => simp
  · rw [List.take_left]

theorem stepTurns_node (cur : BFSNode) (d : Nat) :
    stepTurns (nodeKey cur) d = if d = cur.direction then cur.turns else cur.turns + 1 := rfl

theorem scanDirs_found (board : BoardState) (e : Pos) (cur : BFSNode) :
    ∀ (ds : List Nat) (adds : List BFSNode) (vis : List VKey) (p : ConnPath),
      scanDirs board e cur ds adds vis = Except.error p →
      ∃ d ∈ ds, stepTurns (nodeKey cur) d ≤ 2 ∧ stepPos cur.position d = e ∧
        p = ⟨cur.path ++ [e], stepTurns (nodeKey cur) d⟩ := by
  intro ds
  induction ds with
  | nil =>
    intro adds vis p h
    exact absurd h (by simp [scanDirs])
  | cons d rest ih =>
    intro adds vis p h
    simp only [scanDirs] at h
    rw [show (if d = cur.direction then cur.turns else cur.turns + 1) =
      stepTurns (nodeKey cur) d from rfl] at h
    split_ifs at h with h1 h2 h3
    · obtain ⟨d', hd', hrest⟩ := ih _ _ _ h
      exact ⟨d', by simp [hd'], hrest⟩
    · injection h with h
      refine ⟨d, by simp, by omega, h2, ?_⟩
      rw [← h]
    · obtain ⟨d', hd', hrest⟩ := ih _ _ _ h
      exact ⟨d', by simp [hd'], hrest⟩
    · obtain ⟨d', hd', hrest⟩ := ih _ _ _ h
      exact ⟨d', by simp [hd'], hrest⟩

theorem scanDirs_hit (board : BoardState) (e : Pos) (cur : BFSNode) :
    ∀ (ds : List Nat) (adds : List BFSNode) (vis : List VKey),
      (∃ d ∈ ds, stepTurns (nodeKey cur) d ≤ 2 ∧ stepPos cur.position d = e) →
      ∃ p, scanDirs board e cur ds adds vis = Except.error p := by
  intro ds
  induction ds with
  | nil =>
    intro adds vis h
    simp at h
  | cons d rest ih =>
    intro adds vis h
    simp only [scanDirs]
    rw [show (if d = cur.direction then cur.turns else cur.turns + 1) =
      stepTurns (nodeKey cur) d from rfl]
    split_ifs with h1 h2 h3
    · apply ih
      obtain ⟨d', hmem, hturn, hhit⟩ := h
      rcases List.mem_cons.mp hmem with rfl | hmem'
      · omega
      · exact ⟨d', hmem', hturn, hhit⟩
    · exact ⟨_, rfl⟩
    · apply ih
      obtain ⟨d', hmem, hturn, hhit⟩ := h
      rcases List.mem_cons.mp hmem with rfl | hmem'
      · exact absurd hhit h2
      · exact ⟨d', hmem', hturn, hhit⟩
    · apply ih
      obtain ⟨d', hmem, hturn, hhit⟩ := h
      rcases List.mem_cons.mp hmem with rfl | hmem'
      · exact absurd hhit h2
      · exact ⟨d', hmem', hturn, hhit⟩

theorem scanDirs_ok (board : BoardState) (e : Pos) (cur : BFSNode) :
    ∀ (ds : List Nat) (adds : List BFSNode) (vis : List VKey)
      (adds' : List BFSNode) (vis' : List VKey),
      scanDirs board e cur ds adds vis = Except.ok (adds', vis') →
      ScanOk board e cur ds adds vis adds' vis' := by
  intro ds
  induction ds with
  | nil =>
    intro adds vis adds' vis' h
    simp only [scanDirs] at h
    injection h with h
    injection h with h1 h2
    subst h1; subst h2
    exact ⟨by simp, [], by simp, by simp, by simp, by simp, by simp, by simp, by simp⟩
  | cons d rest ih =>
    intro adds vis adds' vis' h
    simp only [scanDirs] at h
    rw [show (if d = cur.direction then cur.turns else cur.turns + 1) =
      stepTurns (nodeKey cur) d from rfl] at h
    by_cases h1 : 2 < stepTurns (nodeKey cur) d
    · rw [if_pos h1] at h
      obtain ⟨hnohit, news, ha, hv, hlen, hnodup, hfresh, hprops, hclosure⟩ := ih _ _ _ _ h
      refine ⟨?_, news, ha, hv, by simpa using Nat.le_succ_of_le hlen, hnodup, hfresh, ?_, ?_⟩
      · intro d' hd'
        rcases List.mem_cons.mp hd' with rfl | hmem
        · intro hc
          omega
        · exact hnohit d' hmem
      · intro m hm
        obtain ⟨d', hd', hrest⟩ := hprops m hm
        exact ⟨d', by simp [hd'], hrest⟩
      · intro d' hd' hture hne hpass
        rcases List.mem_cons.mp hd' with rfl | hmem
        · omega
        · exact hclosure d' hmem hture hne hpass
    · rw [if_neg h1] at h
      by_cases h2 : stepPos cur.position d = e
      · rw [if_pos h2] at h
        exact Except.noConfusion h
      · rw [if_neg h2] at h
        by_cases h3 : isPassable (stepPos cur.position d).row
            (stepPos cur.position d).col board e = true ∧
            ((stepPos cur.position d, d, stepTurns (nodeKey cur) d) : VKey) ∉ vis
        · rw [if_pos h3] at h
          obtain ⟨hnohit, news, ha, hv, hlen, hnodup, hfresh, hprops, hclosure⟩ :=
            ih _ _ _ _ h
          obtain ⟨hpass, hfreshkey⟩ := h3
          refine ⟨?_, ⟨stepPos cur.position d, d, stepTurns (nodeKey cur) d,
            cur.path ++ [stepPos cur.position d]⟩ :: news, ?_, ?_, ?_, ?_, ?_, ?_, ?_⟩
          · intro d' hd'
            rcases List.mem_cons.mp hd' with rfl | hmem
            · exact fun hc => h2 hc.2
            · exact hnohit d' hmem
          · rw [ha]
            simp
          · rw [hv]
            simp [nodeKey]
          · simpa using Nat.succ_le_succ hlen
          · simp only [List.map_cons, List.nodup_cons]
            refine ⟨?_, hnodup⟩
            intro hc
            obtain ⟨m, hm, hkey⟩ := List.mem_map.mp hc
            have := hfresh m hm
            rw [hkey] at this
            exact this (by simp [nodeKey])
          · intro m hm
            rcases List.mem_cons.mp hm with rfl | hmem
            · simpa [nodeKey] using hfreshkey
            · intro hc
              exact hfresh m hmem (by simp [hc])
          · intro m hm
            rcases List.mem_cons.mp hm with rfl | hmem
            · exact ⟨d, by simp, rfl, rfl, rfl, rfl, hpass, h2, (by omega : stepTurns (nodeKey cur) d ≤ 2)⟩
            · obtain ⟨d', hd', hrest⟩ := hprops m hmem
              exact ⟨d', by simp [hd'], hrest⟩
          · intro d' hd' hture hne hpass'
            rcases List.mem_cons.mp hd' with rfl | hmem
            · rw [hv]
              simp [nodeKey]
            · exact hclosure d' hmem hture hne hpass'
        · rw [if_neg h3] at h
          obtain ⟨hnohit, news, ha, hv, hlen, hnodup, hfresh, hprops, hclosure⟩ :=
            ih _ _ _ _ h
          refine ⟨?_, news, ha, hv, by simpa using Nat.le_succ_of_le hlen, hnodup,
            hfresh, ?_, ?_⟩
          · intro d' hd'
            rcases List.mem_cons.mp hd' with rfl | hmem
            · exact fun hc => h2 hc.2
            · exact hnohit d' hmem
          · intro m hm
            obtain ⟨d', hd', hrest⟩ := hprops m hm
            exact ⟨d', by simp [hd'], hrest⟩
          · intro d' hd' hture hne hpass
            rcases List.mem_cons.mp hd' with rfl | hmem
            · have hstale : ((stepPos cur.position d', d',
                stepTurns (nodeKey cur) d') : VKey) ∈ vis := by
                by_contra hc
                exact h3 ⟨hpass, hc⟩
              rw [hv]
              simp [hstale]
            · exact hclosure d' hmem hture hne hpass

theorem initScan_found (start e : Pos) (board : BoardState) :
    ∀ (ds : List Nat) (adds : List BFSNode) (vis : List VKey) (p : ConnPath),
      initScan start e board ds adds vis = Except.error p →
      (∃ d ∈ ds, stepPos start d = e) ∧ p = ⟨[start, e], 0⟩ := by
  intro ds
  induction ds with
  | nil =>
    intro adds vis p h
    exact absurd h (by simp [initScan])
  | cons d rest ih =>
    intro adds vis p h
    simp only [initScan] at h
    by_cases h1 : stepPos start d = e
    · rw [if_pos h1] at h
      injection h with h
      exact ⟨⟨d, by simp, h1⟩, h.symm⟩
    · rw [if_neg h1] at h
      by_cases h2 : isPassable (stepPos start d).row (stepPos start d).col board e = true
      · rw [if_pos h2] at h
        obtain ⟨⟨d', hd', hhit⟩, hp⟩ := ih _ _ _ h
        exact ⟨⟨d', by simp [hd'], hhit⟩, hp⟩
      · rw [if_neg h2] at h
        obtain ⟨⟨d', hd', hhit⟩, hp⟩ := ih _ _ _ h
        exact ⟨⟨d', by simp [hd'], hhit⟩, hp⟩

theorem initScan_hit (start e : Pos) (board : BoardState) :
    ∀ (ds : List Nat) (adds : List BFSNode) (vis : List VKey),
      (∃ d ∈ ds, stepPos start d = e) →
      ∃ p, initScan start e board ds adds vis = Except.error p := by
  intro ds
  induction ds with
  | nil =>
    intro adds vis h
    simp at h
  | cons d rest ih =>
    intro adds vis h
    simp only [initScan]
    by_cases h1 : stepPos start d = e
    · rw [if_pos h1]
      exact ⟨_, rfl⟩
    · rw [if_neg h1]
      have hrest : ∃ d' ∈ rest, stepPos start d' = e := by
        obtain ⟨d', hmem, hhit⟩ := h
        rcases List.mem_cons.mp hmem with rfl | hmem'
        · exact absurd hhit h1
        · exact ⟨d', hmem', hhit⟩
      by_cases h2 : isPassable (stepPos start d).row (stepPos start d).col board e = true
      · rw [if_pos h2]
        exact ih _ _ hrest
      · rw [if_neg h2]
        exact ih _ _ hrest

theorem initScan_ok (start e : Pos) (board : BoardState) :
    ∀ (ds : List Nat) (adds : List BFSNode) (vis : List VKey)
      (adds' : List BFSNode) (vis' : List VKey),
      ds.Nodup → (∀ k ∈ vis, k.2.1 ∉ ds) →
      initScan start e board ds adds vis = Except.ok (adds', vis') →
      InitScanOk start e board ds adds vis adds' vis' := by
  intro ds
  induction ds with
  | nil =>
    intro adds vis adds' vis' _ _ h
    simp only [initScan] at h
    injection h with h
    injection h with h1 h2
    subst h1; subst h2
    exact ⟨by simp, [], by simp, by simp, by simp, by simp, by simp, by simp, by simp⟩
  | cons d rest ih =>
    intro adds vis adds' vis' hnd hdirs h
    have hnd' : rest.Nodup := (List.nodup_cons.mp hnd).2
    have hdnotin : d ∉ rest := (List.nodup_cons.mp hnd).1
    simp only [initScan] at h
    by_cases h1 : stepPos start d = e
    · rw [if_pos h1] at h
      exact Except.noConfusion h
    · rw [if_neg h1] at h
      by_cases h2 : isPassable (stepPos start d).row (stepPos start d).col board e = true
      · rw [if_pos h2] at h
        have hdirs' : ∀ k ∈ (((stepPos start d, d, 0) : VKey) :: vis), k.2.1 ∉ rest := by
          intro k hk
          rcases List.mem_cons.mp hk with rfl | hmem
          · exact hdnotin
          · exact fun hc => hdirs k hmem (by simp [hc])
        obtain ⟨hnohit, news, ha, hv, hlen, hnodup, hfresh, hprops, hclosure⟩ :=
          ih _ _ _ _ hnd' hdirs' h
        refine ⟨?_, ⟨stepPos start d, d, 0, [start, stepPos start d]⟩ :: news,
          ?_, ?_, ?_, ?_, ?_, ?_, ?_⟩
        · intro d' hd'
          rcases List.mem_cons.mp hd' with rfl | hmem
          · exact h1
          · exact hnohit d' hmem
        · rw [ha]
          simp
        · rw [hv]
          simp [nodeKey]
        · simpa using Nat.succ_le_succ hlen
        · simp only [List.map_cons, List.nodup_cons]
          refine ⟨?_, hnodup⟩
          intro hc
          obtain ⟨m, hm, hkey⟩ := List.mem_map.mp hc
          have := hfresh m hm
          rw [hkey] at this
          exact this (by simp [nodeKey])
        · intro m hm
          rcases List.mem_cons.mp hm with rfl | hmem
          · intro hc
            exact hdirs _ hc (by simp [nodeKey])
          · intro hc
            exact hfresh m hmem (by simp [hc])
        · intro m hm
          rcases List.mem_cons.mp hm with rfl | hmem
          · exact ⟨d, by simp, rfl, rfl, rfl, rfl, h2, h1⟩
          · obtain ⟨d', hd', hrest⟩ := hprops m hmem
            exact ⟨d', by simp [hd'], hrest⟩
        · intro d' hd' hne hpass
          rcases List.mem_cons.mp hd' with rfl | hmem
          · rw [hv]
            simp [nodeKey]
          · exact hclosure d' hmem hne hpass
      · rw [if_neg h2] at h
        have hdirs' : ∀ k ∈ vis, k.2.1 ∉ rest :=
          fun k hk hc => hdirs k hk (by simp [hc])
        obtain ⟨hnohit, news, ha, hv, hlen, hnodup, hfresh, hprops, hclosure⟩ :=
          ih _ _ _ _ hnd' hdirs' h
        refine ⟨?_, news, ha, hv, by simpa using Nat.le_succ_of_le hlen, hnodup,
          hfresh, ?_, ?_⟩
        · intro d' hd'
          rcases List.mem_cons.mp hd' with rfl | hmem
          · exact h1
          · exact hnohit d' hmem
        · intro m hm
          obtain ⟨d', hd', hrest⟩ := hprops m hm
          exact ⟨d', by simp [hd'], hrest⟩
        · intro d' hd' hne hpass
          rcases List.mem_cons.mp hd' with rfl | hmem
          · exact absurd hpass h2
          · exact hclosure d' hmem hne hpass

theorem mem_posAlong_end (s : Pos) :
    ∀ ds : List Nat, endPosOf s ds ∈ posAlong s ds := by
  intro ds
  induction ds generalizing s with
  | nil => simp [posAlong, endPosOf_nil]
  | cons d rest ih =>
    simp only [posAlong, endPosOf_cons]
    exact List.mem_cons_of_mem s (ih (stepPos s d))

theorem endPos_mem_drop1 (s : Pos) :
    ∀ ds : List Nat, ds ≠ [] → endPosOf s ds ∈ (posAlong s ds).drop 1 := by
  intro ds
  cases ds with
  | nil => intro h; exact absurd rfl h
  | cons d rest =>
    intro _
    simp only [posAlong, endPosOf_cons, List.drop_succ_cons, List.drop_zero]
    exact mem_posAlong_end (stepPos s d) rest

theorem goodNode_position (start e : Pos) (board : BoardState) (n : BFSNode)
    (h : GoodNode start e board n) :
    n.position ≠ e ∧ isPassable n.position.row n.position.col board e = true := by
  obtain ⟨ds, hne, _, _, hpos, _, _, _, hdrop⟩ := h
  have := hdrop n.position (by rw [hpos]; exact endPos_mem_drop1 start ds hne)
  exact ⟨this.2, this.1⟩

theorem goodNode_init (start e : Pos) (board : BoardState) (m : BFSNode) (d : Nat)
    (hd : d < 4) (hpos : m.position = stepPos start d) (hdir : m.direction = d)
    (ht : m.turns = 0) (hpath : m.path = [start, m.position])
    (hpass : isPassable m.position.row m.position.col board e = true)
    (hne : m.position ≠ e) : GoodNode start e board m := by
  refine ⟨[d], by simp, by simpa using hd, ?_, ?_, by simp [hdir], by simp [ht, dirChanges],
    by simp [ht], ?_⟩
  · rw [hpath, hpos]
    rfl
  · rw [hpos]
    rfl
  · intro p hp
    simp only [posAlong, List.drop_succ_cons, List.drop_zero] at hp
    rcases List.mem_cons.mp hp with rfl | hmem
    · rw [← hpos]
      exact ⟨hpass, hne⟩
    · simp [posAlong] at hmem

theorem goodNode_step (start e : Pos) (board : BoardState) (cur m : BFSNode)
    (hcur : GoodNode start e board cur) (d : Nat) (hd : d < 4)
    (hpos : m.position = stepPos cur.position d) (hdir : m.direction = d)
    (ht : m.turns = stepTurns (nodeKey cur) d)
    (hpath : m.path = cur.path ++ [m.position])
    (hpass : isPassable m.position.row m.position.col board e = true)
    (hne : m.position ≠ e) (ht2 : m.turns ≤ 2) : GoodNode start e board m := by
  obtain ⟨ds0, hne0, hd0, hpath0, hpos0, hlast0, hturn0, _, hdrop0⟩ := hcur
  refine ⟨ds0 ++ [d], by simp, ?_, ?_, ?_, ?_, ?_, ht2, ?_⟩
  · intro d' hd'
    rcases List.mem_append.mp hd' with hmem | hmem
    · exact hd0 d' hmem
    · simp at hmem
      omega
  · rw [hpath, posAlong_snoc, hpath0, hpos, ← hpos0]
  · rw [endPosOf_snoc, hpos, hpos0]
  · rw [List.getLast?_concat, hdir]
  · rw [ht, stepTurns_node, dirChanges_snoc d ds0 hne0, ← hturn0, hlast0]
    by_cases hcase : d = cur.direction
    · simp [hcase]
    · rw [if_neg hcase, if_neg (by
        intro hc
        injection hc with hc
        exact hcase hc.symm)]
  · intro p hp
    rw [posAlong_snoc, ← hpos0, ← hpos] at hp
    have hsplit : (posAlong start ds0 ++ [m.position]).drop 1 =
        (posAlong start ds0).drop 1 ++ [m.position] := by
      cases hpa : posAlong start ds0 with
      | nil => exact absurd hpa (posAlong_ne_nil start ds0)
      | cons x xs => simp
    rw [hsplit] at hp
    rcases List.mem_append.mp hp with hmem | hmem
    · exact hdrop0 p hmem
    · simp only [List.mem_singleton] at hmem
      subst hmem
      exact ⟨hpass, hne⟩

theorem returnedGood_direct (start e : Pos) (board : BoardState) (d : Nat)
    (hd : d < 4) (hhit : stepPos start d = e) (_hne : start ≠ e) :
    ReturnedGood start e board ⟨[start, e], 0⟩ := by
  refine ⟨[d], by simp, by simpa using hd, by simpa [endPosOf, stepPos] using hhit,
    ?_, by simp [dirChanges], by simp, ?_⟩
  · show [start, e] = [start, stepPos start d]
    rw [hhit]
  · intro q hq
    simp [innerPositions_single] at hq

theorem returnedGood_of_found (start e : Pos) (board : BoardState) (cur : BFSNode)
    (hcur : GoodNode start e board cur) (d : Nat) (hd : d < 4)
    (hturn : stepTurns (nodeKey cur) d ≤ 2) (hhit : stepPos cur.position d = e) :
    ReturnedGood start e board ⟨cur.path ++ [e], stepTurns (nodeKey cur) d⟩ := by
  obtain ⟨ds0, hne0, hd0, hpath0, hpos0, hlast0, hturn0, _, hdrop0⟩ := hcur
  refine ⟨ds0 ++ [d], by simp, ?_, ?_, ?_, ?_, hturn, ?_⟩
  · intro d' hd'
    rcases List.mem_append.mp hd' with hmem | hmem
    · exact hd0 d' hmem
    · simp at hmem
      omega
  · rw [endPosOf_snoc, ← hpos0, hhit]
  · show cur.path ++ [e] = posAlong start (ds0 ++ [d])
    rw [posAlong_snoc, hpath0, ← hpos0, hhit]
  · show stepTurns (nodeKey cur) d = dirChanges (ds0 ++ [d])
    rw [stepTurns_node, dirChanges_snoc d ds0 hne0, ← hturn0, hlast0]
    by_cases hcase : d = cur.direction
    · simp [hcase]
    · rw [if_neg hcase, if_neg (by
        intro hc
        injection hc with hc
        exact hcase hc.symm)]
  · intro q hq
    unfold innerPositions at hq
    rw [posAlong_snoc, ← hpos0, hhit] at hq
    have hsplit : (posAlong start ds0 ++ [e]).drop 1 =
        (posAlong start ds0).drop 1 ++ [e] := by
      cases hpa : posAlong start ds0 with
      | nil => exact absurd hpa (posAlong_ne_nil start ds0)
      | cons x xs => simp
    rw [hsplit, List.dropLast_concat] at hq
    exact hdrop0 q hq

theorem bfsLoop_sound (start e : Pos) (board : BoardState) :
    ∀ (fuel : Nat) (queue : List BFSNode) (vis : List VKey) (p : ConnPath),
      (∀ n ∈ queue, GoodNode start e board n) →
      bfsLoop board e fuel queue vis = some (some p) →
      ReturnedGood start e board p := by
  intro fuel
  induction fuel with
  | zero =>
    intro queue vis p _ h
    exact Option.noConfusion h
  | succ fuel ih =>
    intro queue vis p hgood h
    cases queue with
    | nil =>
      rw [bfsLoop] at h
      injection h with h
      exact Option.noConfusion h
    | cons cur rest =>
      rw [bfsLoop] at h
      cases hscan : scanDirs board e cur [0, 1, 2, 3] [] vis with
      | error p' =>
        rw [hscan] at h
        injection h with h
        injection h with h
        subst h
        obtain ⟨d, hd, hturn, hhit, hp⟩ := scanDirs_found board e cur _ _ _ _ hscan
        rw [hp]
        exact returnedGood_of_found start e board cur (hgood cur (by simp)) d
          ((mem_dirRange d).mpr hd) hturn hhit
      | ok pair =>
        obtain ⟨adds, vis'⟩ := pair
        rw [hscan] at h
        refine ih (rest ++ adds) vis' p ?_ h
        obtain ⟨hnohit, news, ha, hv, hlen, hnodup, hfresh, hprops, hclosure⟩ :=
          scanDirs_ok board e cur _ _ _ _ _ hscan
        rw [ha]
        intro n hn
        rcases List.mem_append.mp hn with hmem | hmem
        · exact hgood n (by simp [hmem])
        · simp only [List.nil_append] at hmem
          obtain ⟨d, hd, hpos, hdir, ht, hpath, hpass, hne, ht2⟩ := hprops n hmem
          exact goodNode_step start e board cur n (hgood cur (by simp)) d
            ((mem_dirRange d).mpr hd) hpos hdir ht hpath hpass hne ht2

theorem pos_ne_coords {p e : Pos} (h : p ≠ e) : ¬(p.row = e.row ∧ p.col = e.col) := by
  obtain ⟨pr, pc⟩ := p
  obtain ⟨er, ec⟩ := e
  intro hc
  have h1 : pr = er := hc.1
  have h2 : pc = ec := hc.2
  subst h1; subst h2
  exact h rfl

theorem keyInRange_mem_allKeys (board : BoardState) (k : VKey)
    (h : keyInRange board k) : k ∈ allKeys board := by
  obtain ⟨⟨kr, kc⟩, kd, kt⟩ := k
  obtain ⟨h1, h2, h3, h4, h5, h6⟩ := h
  have h1' : -1 ≤ kr := h1
  have h2' : kr ≤ (board.rows : Int) := h2
  have h3' : -1 ≤ kc := h3
  have h4' : kc ≤ (board.cols : Int) := h4
  have h5' : kd < 4 := h5
  have h6' : kt < 3 := h6
  simp only [allKeys, List.mem_flatMap, List.mem_map, List.mem_range]
  refine ⟨(kr + 1).toNat, by omega, (kc + 1).toNat, by omega, kd, by omega, kt, by omega, ?_⟩
  simp only [Prod.mk.injEq, Pos.mk.injEq, eq_self_iff_true, and_true]
  exact ⟨by omega, by omega⟩

theorem vis_length_le (board : BoardState) (vis : List VKey) (hnd : vis.Nodup)
    (hsub : ∀ k ∈ vis, keyInRange board k) :
    vis.length ≤ (allKeys board).length := by
  have hcard : vis.toFinset.card = vis.length := List.toFinset_card_of_nodup hnd
  have hsubset : vis.toFinset ⊆ (allKeys board).toFinset := by
    intro x hx
    rw [List.mem_toFinset] at hx ⊢
    exact keyInRange_mem_allKeys board x (hsub x hx)
  calc vis.length = vis.toFinset.card := hcard.symm
    _ ≤ (allKeys board).toFinset.card := Finset.card_le_card hsubset
    _ ≤ (allKeys board).length := List.toFinset_card_le _

theorem scan_news_range (board : BoardState) (e : Pos) (cur : BFSNode)
    (news : List BFSNode)
    (hprops : ∀ m ∈ news, ∃ d ∈ ([0, 1, 2, 3] : List Nat),
      m.position = stepPos cur.position d ∧ m.direction = d ∧
      m.turns = stepTurns (nodeKey cur) d ∧ m.path = cur.path ++ [m.position] ∧
      isPassable m.position.row m.position.col board e = true ∧ m.position ≠ e ∧
      m.turns ≤ 2) :
    ∀ k ∈ news.map nodeKey, keyInRange board k ∧ k.1 ≠ e := by
  intro k hk
  obtain ⟨m, hm, hkey⟩ := List.mem_map.mp hk
  obtain ⟨d, hd, _, hdir, _, _, hpass, hne, ht2⟩ := hprops m hm
  have hrange := isPassable_range _ _ board e hpass (pos_ne_coords hne)
  subst hkey
  exact ⟨⟨hrange.1, hrange.2.1, hrange.2.2.1, hrange.2.2.2,
    (by rw [hdir]; exact (mem_dirRange d).mpr hd : m.direction < 4),
    (by omega : m.turns < 3)⟩, hne⟩

theorem bfsLoop_fuel (board : BoardState) (e : Pos) :
    ∀ (fuel : Nat) (queue : List BFSNode) (vis : List VKey),
      vis.Nodup → (∀ k ∈ vis, keyInRange board k) →
      queue.length + 2 * ((allKeys board).length - vis.length) < fuel →
      bfsLoop board e fuel queue vis ≠ none := by
  intro fuel
  induction fuel with
  | zero =>
    intro queue vis _ _ hm
    omega
  | succ fuel ih =>
    intro queue vis hnd hrange hm
    cases queue with
    | nil =>
      rw [bfsLoop]
      simp
    | cons cur rest =>
      rw [bfsLoop]
      cases hscan : scanDirs board e cur [0, 1, 2, 3] [] vis with
      | error p' => simp
      | ok pair =>
        obtain ⟨adds, vis'⟩ := pair
        obtain ⟨hnohit, news, ha, hv, hlen, hnodup, hfresh, hprops, hclosure⟩ :=
          scanDirs_ok board e cur _ _ _ _ _ hscan
        simp only [List.nil_append] at ha
        subst ha
        have hrange' : ∀ k ∈ vis', keyInRange board k := by
          intro k hk
          rw [hv] at hk
          rcases List.mem_append.mp hk with hmem | hmem
          · exact (scan_news_range board e cur adds hprops k (List.mem_reverse.mp hmem)).1
          · exact hrange k hmem
        have hnd' : vis'.Nodup := by
          rw [hv]
          rw [List.nodup_append]
          refine ⟨by rw [List.nodup_reverse]; exact hnodup, hnd, ?_⟩
          intro k hk1 hk2
          obtain ⟨m, hm, hkey⟩ := List.mem_map.mp (List.mem_reverse.mp hk1)
          exact hfresh m hm (by rw [hkey]; exact hk2)
        have hlen' : vis'.length = adds.length + vis.length := by
          rw [hv]
          simp
        have hNbound : vis'.length ≤ (allKeys board).length :=
          vis_length_le board vis' hnd' hrange'
        apply ih (rest ++ adds) vis' hnd' hrange'
        rw [List.length_append]
        simp only [List.length_cons] at hm
        omega

theorem closedKey_mono (board : BoardState) (e : Pos) (vis vis' : List VKey)
    (hsub : ∀ k ∈ vis, k ∈ vis') (k : VKey) (h : ClosedKey board e vis k) :
    ClosedKey board e vis' k :=
  ⟨fun d hd ht hne hpass => hsub _ (h.1 d hd ht hne hpass), h.2⟩

theorem sorted_of_all_eq (c : Nat) :
    ∀ l : List Nat, (∀ x ∈ l, x = c) → List.Sorted (fun a b => a ≤ b) l := by
  intro l
  induction l with
  | nil => intro _; exact List.sorted_nil
  | cons x xs ih =>
    intro h
    rw [List.sorted_cons]
    refine ⟨?_, ih (fun y hy => h y (by simp [hy]))⟩
    intro b hb
    rw [h x (by simp), h b (by simp [hb])]

theorem sorted_head_le (cur : BFSNode) (rest : List BFSNode)
    (hs : List.Sorted (fun a b => a ≤ b) ((cur :: rest).map plen)) :
    ∀ n ∈ cur :: rest, plen cur ≤ plen n := by
  intro n hn
  rcases List.mem_cons.mp hn with rfl | hmem
  · exact le_refl _
  · simp only [List.map_cons, List.sorted_cons] at hs
    exact hs.1 (plen n) (List.mem_map.mpr ⟨n, hmem, rfl⟩)

theorem loopInv_step (start e : Pos) (board : BoardState) (cur : BFSNode)
    (rest adds : List BFSNode) (vis vis' : List VKey)
    (hinv : LoopInv start e board (cur :: rest) vis)
    (hscan : scanDirs board e cur [0, 1, 2, 3] [] vis = Except.ok (adds, vis')) :
    LoopInv start e board (rest ++ adds) vis' ∧
    vis'.length = adds.length + vis.length ∧
    (∀ m ∈ adds, plen m = plen cur + 1) ∧
    (∀ k ∈ vis, k ∈ vis') ∧
    adds.length ≤ 4 := by
  obtain ⟨hnohit, news, ha, hv, hlen, hnodup, hfresh, hprops, hclosure⟩ :=
    scanDirs_ok board e cur _ _ _ _ _ hscan
  simp only [List.nil_append] at ha
  subst ha
  have hgoodcur : GoodNode start e board cur := hinv.good cur (by simp)
  have hsub : ∀ k ∈ vis, k ∈ vis' := by
    intro k hk
    rw [hv]
    exact List.mem_append_right _ hk
  have haddskey : ∀ m ∈ adds, nodeKey m ∈ vis' := by
    intro m hm
    rw [hv]
    exact List.mem_append_left _ (List.mem_reverse.mpr (List.mem_map.mpr ⟨m, hm, rfl⟩))
  have hplenadds : ∀ m ∈ adds, plen m = plen cur + 1 := by
    intro m hm
    obtain ⟨d, hd, hpos, hdir, ht, hpath, hpass, hne, ht2⟩ := hprops m hm
    unfold plen
    rw [hpath]
    simp
  have hgoodadds : ∀ m ∈ adds, GoodNode start e board m := by
    intro m hm
    obtain ⟨d, hd, hpos, hdir, ht, hpath, hpass, hne, ht2⟩ := hprops m hm
    exact goodNode_step start e board cur m hgoodcur d ((mem_dirRange d).mpr hd)
      hpos hdir ht hpath hpass hne ht2
  have hwindowold : ∀ n ∈ cur :: rest, plen n ≤ plen cur + 1 :=
    fun n hn => hinv.window n hn cur rfl
  have hheadle := sorted_head_le cur rest hinv.sorted
  refine ⟨?_, ?_, hplenadds, hsub, by simpa using hlen⟩
  · refine ⟨?_, ?_, ?_, ?_, ?_, ?_, ?_, ?_, ?_⟩
    · intro n hn
      rcases List.mem_append.mp hn with hmem | hmem
      · exact hinv.good n (by simp [hmem])
      · exact hgoodadds n hmem
    · intro n hn
      rcases List.mem_append.mp hn with hmem | hmem
      · exact hsub _ (hinv.qsub n (by simp [hmem]))
      · exact haddskey n hmem
    · rw [List.map_append, List.nodup_append]
      refine ⟨?_, hnodup, ?_⟩
      · have := hinv.qnodup
        simp only [List.map_cons, List.nodup_cons] at this
        exact this.2
      · intro k hk1 hk2
        obtain ⟨m, hm, hkey⟩ := List.mem_map.mp hk2
        refine hfresh m hm ?_
        rw [hkey]
        obtain ⟨n, hn, hkeyn⟩ := List.mem_map.mp hk1
        rw [← hkeyn]
        exact hinv.qsub n (by simp [hn])
    · rw [hv, List.nodup_append]
      refine ⟨by rw [List.nodup_reverse]; exact hnodup, hinv.vnodup, ?_⟩
      intro k hk1 hk2
      obtain ⟨m, hm, hkey⟩ := List.mem_map.mp (List.mem_reverse.mp hk1)
      exact hfresh m hm (by rw [hkey]; exact hk2)
    · intro k hk
      rw [hv] at hk
      rcases List.mem_append.mp hk with hmem | hmem
      · exact (scan_news_range board e cur adds hprops k (List.mem_reverse.mp hmem)).1
      · exact hinv.vrange k hmem
    · intro k hk
      rw [hv] at hk
      rcases List.mem_append.mp hk with hmem | hmem
      · exact (scan_news_range board e cur adds hprops k (List.mem_reverse.mp hmem)).2
      · exact hinv.vpos k hmem
    · rw [List.map_append]
      show List.Pairwise (fun a b => a ≤ b) _
      rw [List.pairwise_append]
      refine ⟨?_, ?_, ?_⟩
      · have := hinv.sorted
        simp only [List.map_cons, List.sorted_cons] at this
        exact this.2
      · apply sorted_of_all_eq (plen cur + 1)
        intro x hx
        obtain ⟨m, hm, hxeq⟩ := List.mem_map.mp hx
        rw [← hxeq]
        exact hplenadds m hm
      · intro a haa b hbb
        obtain ⟨m, hm, haeq⟩ := List.mem_map.mp haa
        obtain ⟨m', hm', hbeq⟩ := List.mem_map.mp hbb
        rw [← haeq, ← hbeq, hplenadds m' hm']
        exact hwindowold m (by simp [hm])
    · intro n hn h' hh'
      cases rest with
      | nil =>
        simp only [List.nil_append] at hn hh'
        cases adds with
        | nil => simp at hn
        | cons a t =>
          simp only [List.head?_cons] at hh'
          injection hh' with hh'
          subst hh'
          rw [hplenadds n hn, hplenadds a (by simp)]
          omega
      | cons r t =>
        simp only [List.cons_append, List.head?_cons] at hh'
        injection hh' with hh'
        subst hh'
        have hr : plen cur ≤ plen r := hheadle r (by simp)
        rcases List.mem_append.mp hn with hmem | hmem
        · have := hwindowold n (by simp [hmem])
          omega
        · rw [hplenadds n hmem]
          omega
    · intro k hk hknot
      rw [hv] at hk
      rcases List.mem_append.mp hk with hmem | hmem
      · exact absurd (by
          obtain ⟨m, hm, hkey⟩ := List.mem_map.mp (List.mem_reverse.mp hmem)
          rw [List.map_append]
          exact List.mem_append_right _ (by rw [← hkey]; exact List.mem_map.mpr ⟨m, hm, rfl⟩))
          hknot
      · by_cases hkc : k = nodeKey cur
        · subst hkc
          refine ⟨?_, ?_⟩
          · intro d hd ht hne hpass
            exact hclosure d ((mem_dirRange d).mp hd) ht hne hpass
          · intro d hd
            exact hnohit d ((mem_dirRange d).mp hd)
        · have : k ∉ (cur :: rest).map nodeKey := by
            intro hc
            rw [List.map_cons] at hc
            rcases List.mem_cons.mp hc with hc1 | hc2
            · exact hkc hc1
            · refine hknot ?_
              rw [List.map_append]
              exact List.mem_append_left _ hc2
          exact closedKey_mono board e vis vis' hsub k (hinv.closed k hmem this)
  · rw [hv]
    simp

theorem stepTurns_key_snoc (start : Pos) (pre : List Nat) (lastd d : Nat)
    (hpre : pre ≠ []) (hlast : pre.getLast? = some lastd) :
    stepTurns ((endPosOf start pre, lastd, dirChanges pre) : VKey) d =
      dirChanges (pre ++ [d]) := by
  rw [dirChanges_snoc d pre hpre, hlast]
  show (if d = lastd then dirChanges pre else dirChanges pre + 1) = _
  by_cases hdl : d = lastd
  · subst hdl
    simp
  · rw [if_neg hdl, if_neg (fun h => hdl (Option.some.inj h).symm)]

theorem chaseWitness (start e : Pos) (board : BoardState)
    (queue : List BFSNode) (vis : List VKey) (B : Nat)
    (hclosed : ∀ k ∈ vis, k ∉ queue.map nodeKey → ClosedKey board e vis k)
    (hvpos : ∀ k ∈ vis, k.1 ≠ e)
    (hB : ∀ m ∈ queue, plen m ≤ B) :
    ∀ (suf pre : List Nat) (lastd : Nat), pre ≠ [] → B ≤ pre.length + 1 →
      IsConnStrict start e board (pre ++ suf) →
      pre.getLast? = some lastd →
      ((endPosOf start pre, lastd, dirChanges pre) : VKey) ∈ vis →
      WalkWitness start queue (pre ++ suf) := by
  intro suf
  induction suf with
  | nil =>
    intro pre lastd hpre hBpre hconn hlast hmem
    exfalso
    apply hvpos _ hmem
    show endPosOf start pre = e
    have := hconn.1.2.2.1
    rwa [List.append_nil] at this
  | cons d suf' ih =>
    intro pre lastd hpre hBpre hconn hlast hmem
    by_cases hq : ((endPosOf start pre, lastd, dirChanges pre) : VKey) ∈ queue.map nodeKey
    · obtain ⟨n, hn, hkey⟩ := List.mem_map.mp hq
      unfold nodeKey at hkey
      rw [Prod.mk.injEq, Prod.mk.injEq] at hkey
      obtain ⟨hk1, hk2, hk3⟩ := hkey
      refine ⟨pre, d :: suf', n, rfl, hpre, hn, hk1, ?_, hk3, ?_⟩
      · rw [hlast, hk2]
      · exact le_trans (hB n hn) hBpre
    · have hck := hclosed _ hmem hq
      have hd4 : d < 4 := hconn.1.2.1 d (by simp)
      have hnt := stepTurns_key_snoc start pre lastd d hpre hlast
      cases suf' with
      | nil =>
        exfalso
        have hend : endPosOf start (pre ++ [d]) = e := hconn.1.2.2.1
        have hnt2 : stepTurns ((endPosOf start pre, lastd, dirChanges pre) : VKey) d ≤ 2 := by
          rw [hnt]
          exact hconn.1.2.2.2.2
        refine hck.2 d hd4 ⟨hnt2, ?_⟩
        show stepPos (endPosOf start pre) d = e
        rw [← endPosOf_snoc, hend]
      | cons d1 suf'' =>
        have hassoc : pre ++ d :: d1 :: suf'' = (pre ++ [d]) ++ (d1 :: suf'') := by simp
        have hinner := prefixEnd_mem_inner start (pre ++ [d]) (d1 :: suf'')
          (by simp) (by simp)
        rw [← hassoc] at hinner
        have hspec := hconn.1.2.2.2.1 _ hinner
        have hnee : endPosOf start (pre ++ [d]) ≠ e := hconn.2 _ hinner
        have hpassb := (specPassable_iff board e _).mp hspec
        have hnt2 : stepTurns ((endPosOf start pre, lastd, dirChanges pre) : VKey) d ≤ 2 := by
          rw [hnt]
          have h1 := dirChanges_prefix_le (pre ++ [d]) (d1 :: suf'')
          rw [← hassoc] at h1
          have h2 := hconn.1.2.2.2.2
          omega
        have heq : endPosOf start (pre ++ [d]) = stepPos (endPosOf start pre) d :=
          endPosOf_snoc start pre d
        have hmem' := hck.1 d hd4 hnt2
          (by
            show stepPos (endPosOf start pre) d ≠ e
            rw [← heq]
            exact hnee)
          (by
            show isPassable (stepPos (endPosOf start pre) d).row
              (stepPos (endPosOf start pre) d).col board e = true
            rw [← heq]
            exact hpassb)
        rw [hassoc]
        refine ih (pre ++ [d]) d (by simp) ?_ ?_ ?_ ?_
        · rw [List.length_append]
          simp only [List.length_cons, List.length_nil]
          omega
        · rw [← hassoc]
          exact hconn
        · exact List.getLast?_concat _
        · rw [endPosOf_snoc, ← hnt]
          exact hmem'

theorem bfsLoop_min (start e : Pos) (board : BoardState) :
    ∀ (fuel : Nat) (queue : List BFSNode) (vis : List VKey) (ds : List Nat),
      LoopInv start e board queue vis →
      queue.length + 2 * ((allKeys board).length - vis.length) < fuel →
      IsConnStrict start e board ds →
      WalkWitness start queue ds →
      ∃ p, bfsLoop board e fuel queue vis = some (some p) ∧
        p.points.length ≤ ds.length + 1 := by
  intro fuel
  induction fuel with
  | zero =>
    intro queue vis ds _ hm _ _
    omega
  | succ fuel ih =>
    intro queue vis ds hinv hm hconn hwit
    obtain ⟨pre, suf, n, hds, hpre, hn, hpos, hlastd, hturns, hdepth⟩ := hwit
    cases queue with
    | nil => exact absurd hn (List.not_mem_nil n)
    | cons cur rest =>
      have hsufne : suf ≠ [] := by
        intro h
        have hg := (goodNode_position start e board n (hinv.good n hn)).1
        apply hg
        rw [hpos]
        have hend := hconn.1.2.2.1
        rw [hds, h, List.append_nil] at hend
        exact hend
      cases hscan : scanDirs board e cur [0, 1, 2, 3] [] vis with
      | error p =>
        refine ⟨p, ?_, ?_⟩
        · rw [bfsLoop, hscan]
        · obtain ⟨d, hd, hturn, hhit, hp⟩ := scanDirs_found board e cur _ _ _ _ hscan
          have hplenp : p.points.length = cur.path.length + 1 := by
            rw [hp]
            simp
          have hple : plen cur ≤ plen n := sorted_head_le cur rest hinv.sorted n hn
          have hpc : plen cur = cur.path.length := rfl
          have hlds : ds.length = pre.length + suf.length := by
            rw [hds, List.length_append]
          have hs1 : 1 ≤ suf.length := List.length_pos.mpr hsufne
          omega
      | ok pair =>
        obtain ⟨adds, vis'⟩ := pair
        obtain ⟨hinv', hvlen, hplenadds, hsubv, haddlen⟩ :=
          loopInv_step start e board cur rest adds vis vis' hinv hscan
        have hNb : vis'.length ≤ (allKeys board).length :=
          vis_length_le board vis' hinv'.vnodup hinv'.vrange
        have hmeas : (rest ++ adds).length +
            2 * ((allKeys board).length - vis'.length) < fuel := by
          rw [List.length_append]
          simp only [List.length_cons] at hm
          omega
        have hwit' : WalkWitness start (rest ++ adds) ds := by
          rcases List.mem_cons.mp hn with hcur | hrest
          · subst hcur
            obtain ⟨hnohit, news, ha, hv, hlen4, hnodup2, hfresh2, hprops2, hclosure2⟩ :=
              scanDirs_ok board e n _ _ _ _ _ hscan
            cases suf with
            | nil => exact absurd rfl hsufne
            | cons d suf' =>
              have hd4 : d < 4 := hconn.1.2.1 d (by rw [hds]; simp)
              have hst : stepTurns (nodeKey n) d = dirChanges (pre ++ [d]) := by
                rw [← stepTurns_key_snoc start pre n.direction d hpre hlastd]
                show (if d = n.direction then n.turns else n.turns + 1) =
                  (if d = n.direction then dirChanges pre else dirChanges pre + 1)
                rw [hturns]
              have ht2 : stepTurns (nodeKey n) d ≤ 2 := by
                rw [hst]
                have h1 := dirChanges_prefix_le (pre ++ [d]) suf'
                have hassoc2 : (pre ++ [d]) ++ suf' = pre ++ d :: suf' := by simp
                rw [hassoc2, ← hds] at h1
                have h2 := hconn.1.2.2.2.2
                omega
              cases suf' with
              | nil =>
                exfalso
                have hend : endPosOf start ds = e := hconn.1.2.2.1
                rw [hds, endPosOf_snoc] at hend
                refine hnohit d ((mem_dirRange d).mp hd4) ⟨ht2, ?_⟩
                rw [hpos]
                exact hend
              | cons d1 suf'' =>
                have hassoc : pre ++ d :: d1 :: suf'' = (pre ++ [d]) ++ (d1 :: suf'') := by
                  simp
                have hinner := prefixEnd_mem_inner start (pre ++ [d]) (d1 :: suf'')
                  (by simp) (by simp)
                rw [← hassoc, ← hds] at hinner
                have hspec := hconn.1.2.2.2.1 _ hinner
                have hnee := hconn.2 _ hinner
                have hpassb := (specPassable_iff board e _).mp hspec
                have heq : endPosOf start (pre ++ [d]) = stepPos n.position d := by
                  rw [endPosOf_snoc, hpos]
                rw [heq] at hnee hpassb
                have hkey' := hclosure2 d ((mem_dirRange d).mp hd4) ht2 hnee hpassb
                have hBq : ∀ m ∈ rest ++ adds, plen m ≤ plen n + 1 := by
                  intro m hm'
                  rcases List.mem_append.mp hm' with h1 | h1
                  · exact hinv.window m (by simp [h1]) n rfl
                  · rw [hplenadds m h1]
                have hw := chaseWitness start e board (rest ++ adds) vis' (plen n + 1)
                  hinv'.closed hinv'.vpos hBq (d1 :: suf'') (pre ++ [d]) d
                  (by simp)
                  (by
                    rw [List.length_append]
                    simp only [List.length_cons, List.length_nil]
                    omega)
                  (by
                    rw [← hassoc, ← hds]
                    exact hconn)
                  (List.getLast?_concat _)
                  (by
                    rw [endPosOf_snoc, ← hpos, ← hst]
                    exact hkey')
                rw [← hassoc, ← hds] at hw
                exact hw
          · exact ⟨pre, suf, n, hds, hpre, List.mem_append_left adds hrest,
              hpos, hlastd, hturns, hdepth⟩
        obtain ⟨p, hp, hlenp⟩ := ih (rest ++ adds) vis' ds hinv' hmeas hconn hwit'
        refine ⟨p, ?_, hlenp⟩
        rw [bfsLoop, hscan]
        exact hp

theorem dirChanges_append_le (ys : List Nat) :
    ∀ xs : List Nat, dirChanges (xs ++ ys) ≤ dirChanges xs + dirChanges ys + 1 := by
  intro xs
  induction xs with
  | nil =>
    simp only [List.nil_append, dirChanges]
    omega
  | cons a t ih =>
    cases t with
    | nil =>
      cases ys with
      | nil => simp [dirChanges]
      | cons c w =>
        simp only [List.singleton_append, dirChanges]
        have : (if a ≠ c then 1 else 0) ≤ 1 := by split <;> omega
        omega
    | cons b u =>
      simp only [List.cons_append, dirChanges, List.append_eq] at ih ⊢
      omega

theorem dirChanges_le_append (ys : List Nat) :
    ∀ xs : List Nat, dirChanges xs + dirChanges ys ≤ dirChanges (xs ++ ys) := by
  intro xs
  induction xs with
  | nil =>
    simp [dirChanges]
  | cons a t ih =>
    cases t with
    | nil =>
      cases ys with
      | nil => simp [dirChanges]
      | cons c w =>
        simp only [List.singleton_append, dirChanges]
        omega
    | cons b u =>
      simp only [List.cons_append, dirChanges, List.append_eq] at ih ⊢
      omega

theorem isConn_cut (start e : Pos) (board : BoardState) :
    ∀ (N : Nat) (ds : List Nat), ds.length ≤ N → IsConn start e board ds →
      ∃ ds', IsConnStrict start e board ds' ∧ ds'.length ≤ ds.length := by
  intro N
  induction N with
  | zero =>
    intro ds hlen hconn
    have : ds = [] := List.length_eq_zero.mp (by omega)
    exact absurd this hconn.1
  | succ N ih =>
    intro ds hlen hconn
    by_cases hstrict : ∀ p ∈ innerPositions start ds, p ≠ e
    · exact ⟨ds, ⟨hconn, hstrict⟩, le_refl _⟩
    · push_neg at hstrict
      obtain ⟨q, hq, hqe⟩ := hstrict
      rw [hqe] at hq
      obtain ⟨k, hk1, hk2, hk3⟩ := (innerPositions_char start ds e).mp hq
      have htklen : (ds.take k).length = k := by
        rw [List.length_take]
        omega
      have hconn' : IsConn start e board (ds.take k) := by
        refine ⟨?_, ?_, hk3, ?_, ?_⟩
        · intro hnil
          rw [hnil] at htklen
          simp at htklen
          omega
        · intro d hd
          exact hconn.2.1 d (List.take_subset k ds hd)
        · intro q' hq'
          obtain ⟨j, hj1, hj2, hj3⟩ := (innerPositions_char start (ds.take k) q').mp hq'
          refine hconn.2.2.2.1 q' ((innerPositions_char start ds q').mpr ⟨j, hj1, ?_, ?_⟩)
          · omega
          · rw [List.take_take] at hj3
            rwa [min_eq_left (by omega)] at hj3
        · have h1 := dirChanges_prefix_le (ds.take k) (ds.drop k)
          rw [List.take_append_drop] at h1
          have h2 := hconn.2.2.2.2
          omega
      obtain ⟨ds', hs', hl'⟩ := ih (ds.take k) (by omega) hconn'
      exact ⟨ds', hs', by omega⟩

theorem initScan_state (start e : Pos) (board : BoardState)
    (q0 : List BFSNode) (v0 : List VKey)
    (h : initScan start e board [0, 1, 2, 3] [] [] = Except.ok (q0, v0)) :
    LoopInv start e board q0 v0 ∧ q0.length ≤ 4 ∧
    ∀ ds, IsConnStrict start e board ds → WalkWitness start q0 ds := by
  obtain ⟨hnohit, news, ha, hv, hlen, hnodup, hfresh, hprops, hclosure⟩ :=
    initScan_ok start e board [0, 1, 2, 3] [] [] q0 v0 (by decide) (by simp) h
  simp only [List.nil_append] at ha
  subst ha
  rw [List.append_nil] at hv
  have hgood : ∀ m ∈ q0, GoodNode start e board m := by
    intro m hm
    obtain ⟨d, hd, hpos, hdir, ht, hpath, hpass, hne⟩ := hprops m hm
    exact goodNode_init start e board m d ((mem_dirRange d).mpr hd)
      hpos hdir ht hpath hpass hne
  have hplen2 : ∀ m ∈ q0, plen m = 2 := by
    intro m hm
    obtain ⟨d, hd, hpos, hdir, ht, hpath, hpass, hne⟩ := hprops m hm
    unfold plen
    rw [hpath]
    rfl
  have hinv : LoopInv start e board q0 v0 := by
    refine ⟨hgood, ?_, hnodup, ?_, ?_, ?_, ?_, ?_, ?_⟩
    · intro m hm
      rw [hv]
      exact List.mem_reverse.mpr (List.mem_map.mpr ⟨m, hm, rfl⟩)
    · rw [hv, List.nodup_reverse]
      exact hnodup
    · intro k hk
      rw [hv] at hk
      obtain ⟨m, hm, hkey⟩ := List.mem_map.mp (List.mem_reverse.mp hk)
      obtain ⟨d, hd, hpos, hdir, ht, hpath, hpass, hne⟩ := hprops m hm
      have hrange := isPassable_range _ _ board e hpass (pos_ne_coords hne)
      subst hkey
      exact ⟨hrange.1, hrange.2.1, hrange.2.2.1, hrange.2.2.2,
        by rw [nodeKey]; show m.direction < 4; rw [hdir]; exact (mem_dirRange d).mpr hd,
        by rw [nodeKey]; show m.turns < 3; omega⟩
    · intro k hk
      rw [hv] at hk
      obtain ⟨m, hm, hkey⟩ := List.mem_map.mp (List.mem_reverse.mp hk)
      obtain ⟨d, hd, hpos, hdir, ht, hpath, hpass, hne⟩ := hprops m hm
      subst hkey
      exact hne
    · apply sorted_of_all_eq 2
      intro x hx
      obtain ⟨m, hm, hxe⟩ := List.mem_map.mp hx
      rw [← hxe]
      exact hplen2 m hm
    · intro n hn h' hh'
      have hh'mem : h' ∈ q0 := by
        cases q0 with
        | nil => exact Option.noConfusion hh'
        | cons a t =>
          simp only [List.head?_cons] at hh'
          injection hh' with hh'
          rw [← hh']
          simp
      rw [hplen2 n hn, hplen2 h' hh'mem]
      omega
    · intro k hk hknot
      exfalso
      apply hknot
      rw [hv] at hk
      exact List.mem_reverse.mp hk
  refine ⟨hinv, by simpa using hlen, ?_⟩
  intro ds hconn
  cases ds with
  | nil => exact absurd rfl hconn.1.1
  | cons d ds' =>
    have hd4 : d < 4 := hconn.1.2.1 d (by simp)
    cases ds' with
    | nil =>
      exfalso
      have hend : endPosOf start [d] = e := hconn.1.2.2.1
      exact hnohit d ((mem_dirRange d).mp hd4) hend
    | cons d1 ds'' =>
      have hinner := prefixEnd_mem_inner start [d] (d1 :: ds'') (by simp) (by simp)
      have hassoc : ([d] : List Nat) ++ (d1 :: ds'') = d :: d1 :: ds'' := rfl
      rw [hassoc] at hinner
      have hspec := hconn.1.2.2.2.1 _ hinner
      have hnee : endPosOf start [d] ≠ e := hconn.2 _ hinner
      have hpassb := (specPassable_iff board e _).mp hspec
      have hkey : ((stepPos start d, d, 0) : VKey) ∈ v0 :=
        hclosure d ((mem_dirRange d).mp hd4) hnee hpassb
      have hw := chaseWitness start e board q0 v0 2 hinv.closed hinv.vpos
        (fun m hm => le_of_eq (hplen2 m hm)) (d1 :: ds'') [d] d
        (by simp) (by simp)
        (by rw [hassoc]; exact hconn)
        rfl hkey
      rw [hassoc] at hw
      exact hw

theorem findPath_props (start e : Pos) (board : BoardState) (p : ConnPath)
    (h : findPath start e board = some p) :
    start ≠ e ∧ ReturnedGood start e board p ∧
    (∀ ds, IsConnStrict start e board ds → p.points.length ≤ ds.length + 1) := by
  by_cases hse : start = e
  · rw [findPath, if_pos hse] at h
    exact Option.noConfusion h
  rw [findPath, if_neg hse] at h
  cases hscan : initScan start e board [0, 1, 2, 3] [] [] with
  | error p' =>
    rw [hscan] at h
    injection h with h
    subst h
    obtain ⟨⟨d, hd, hhit⟩, hp⟩ := initScan_found start e board _ _ _ _ hscan
    refine ⟨hse, ?_, ?_⟩
    · rw [hp]
      exact returnedGood_direct start e board d ((mem_dirRange d).mpr hd) hhit hse
    · intro ds hconn
      have h2 : p'.points.length = 2 := by
        rw [hp]
        rfl
      have h1 : 1 ≤ ds.length := List.length_pos.mpr hconn.1.1
      omega
  | ok pair =>
    obtain ⟨q0, v0⟩ := pair
    rw [hscan] at h
    have h' : (bfsLoop board e (bfsFuel board) q0 v0).getD none = some p := h
    obtain ⟨hinv, hq4, hwit⟩ := initScan_state start e board q0 v0 hscan
    have hbfs : bfsLoop board e (bfsFuel board) q0 v0 = some (some p) := by
      cases hb : bfsLoop board e (bfsFuel board) q0 v0 with
      | none =>
        rw [hb] at h'
        exact Option.noConfusion h'
      | some o =>
        cases o with
        | none =>
          rw [hb] at h'
          exact Option.noConfusion h'
        | some p' =>
          rw [hb] at h'
          simp only [Option.getD_some] at h'
          rw [h']
    refine ⟨hse, ?_, ?_⟩
    · exact bfsLoop_sound start e board _ q0 v0 p hinv.good hbfs
    · intro ds hconn
      have hmeas : q0.length + 2 * ((allKeys board).length - v0.length) <
          bfsFuel board := by
        unfold bfsFuel
        omega
      obtain ⟨p', hp', hlen'⟩ :=
        bfsLoop_min start e board (bfsFuel board) q0 v0 ds hinv hmeas hconn
          (hwit ds hconn)
      rw [hbfs] at hp'
      injection hp' with hp'
      injection hp' with hp'
      rw [hp']
      exact hlen'

theorem findPath_complete (start e : Pos) (board : BoardState) (hne : start ≠ e)
    (ds : List Nat) (hconn : IsConnStrict start e board ds) :
    ∃ p, findPath start e board = some p := by
  rw [findPath, if_neg hne]
  cases hscan : initScan start e board [0, 1, 2, 3] [] [] with
  | error p' => exact ⟨p', rfl⟩
  | ok pair =>
    obtain ⟨q0, v0⟩ := pair
    obtain ⟨hinv, hq4, hwit⟩ := initScan_state start e board q0 v0 hscan
    have hmeas : q0.length + 2 * ((allKeys board).length - v0.length) <
        bfsFuel board := by
      unfold bfsFuel
      omega
    obtain ⟨p, hp, _⟩ :=
      bfsLoop_min start e board (bfsFuel board) q0 v0 ds hinv hmeas hconn
        (hwit ds hconn)
    refine ⟨p, ?_⟩
    show (bfsLoop board e (bfsFuel board) q0 v0).getD none = some p
    rw [hp]
    rfl

theorem reversal_shortcut (start e : Pos) (board : BoardState)
    (pre suf : List Nat) (d : Nat) (hd : d < 4) (hne : start ≠ e)
    (hconn : IsConnStrict start e board (pre ++ d :: oppDir d :: suf)) :
    IsConnStrict start e board (pre ++ suf) := by
  obtain ⟨⟨hnil, hdirs, hend, hpass, hch⟩, hinner⟩ := hconn
  have hcancel : ∀ t : List Nat,
      endPosOf start (pre ++ d :: oppDir d :: t) = endPosOf start (pre ++ t) := by
    intro t
    rw [endPosOf_append, endPosOf_append, endPosOf_cons, endPosOf_cons,
      stepPos_oppDir _ d hd]
  have hmap : ∀ q, q ∈ innerPositions start (pre ++ suf) →
      q ∈ innerPositions start (pre ++ d :: oppDir d :: suf) := by
    intro q hq
    rw [innerPositions_char] at hq ⊢
    obtain ⟨k, hk1, hk2, hk3⟩ := hq
    rw [List.length_append] at hk2
    by_cases hkp : k ≤ pre.length
    · refine ⟨k, hk1, ?_, ?_⟩
      · rw [List.length_append]
        simp only [List.length_cons]
        omega
      · rw [List.take_append_eq_append_take,
          show k - pre.length = 0 from by omega, List.take_zero,
          List.append_nil] at hk3 ⊢
        exact hk3
    · push_neg at hkp
      refine ⟨k + 2, by omega, ?_, ?_⟩
      · rw [List.length_append]
        simp only [List.length_cons]
        omega
      · have h2 : (pre ++ suf).take k = pre ++ suf.take (k - pre.length) := by
          rw [List.take_append_eq_append_take,
            List.take_of_length_le (by omega : pre.length ≤ k)]
        have h1 : (pre ++ d :: oppDir d :: suf).take (k + 2) =
            pre ++ d :: oppDir d :: suf.take (k - pre.length) := by
          rw [List.take_append_eq_append_take,
            List.take_of_length_le (by omega : pre.length ≤ k + 2),
            show k + 2 - pre.length = (k - pre.length) + 1 + 1 from by omega,
            List.take_succ_cons, List.take_succ_cons]
        rw [h2] at hk3
        rw [h1, hcancel (suf.take (k - pre.length))]
        exact hk3
  refine ⟨⟨?_, ?_, ?_, ?_, ?_⟩, ?_⟩
  · intro hnil2
    apply hne
    calc start = endPosOf start (pre ++ suf) := by rw [hnil2]; rfl
      _ = e := by rw [← hcancel suf]; exact hend
  · intro d' hd'
    apply hdirs
    rcases List.mem_append.mp hd' with h1 | h1
    · exact List.mem_append_left _ h1
    · exact List.mem_append_right _ (by simp [h1])
  · rw [← hcancel suf]
    exact hend
  · intro q hq
    exact hpass q (hmap q hq)
  · have hne2 : d ≠ oppDir d := by
      interval_cases d <;> simp [oppDir]
    have l1 := dirChanges_append_le suf pre
    have l2a := dirChanges_le_append (d :: oppDir d :: suf) pre
    have l2b : 1 + dirChanges suf ≤ dirChanges (d :: oppDir d :: suf) := by
      have h3 := dirChanges_le_append suf [d, oppDir d]
      have h4 : dirChanges [d, oppDir d] = 1 := by
        simp [dirChanges, hne2]
      rw [h4] at h3
      exact h3
    omega
  · intro q hq
    exact hinner q (hmap q hq)

theorem noReversal_or_split (ds : List Nat) :
    NoReversal ds ∨ ∃ pre d suf, ds = pre ++ d :: oppDir d :: suf := by
  induction ds with
  | nil => exact Or.inl List.chain'_nil
  | cons a t ih =>
    cases t with
    | nil => exact Or.inl (List.chain'_singleton a)
    | cons b u =>
      by_cases hab : b = oppDir a
      · exact Or.inr ⟨[], a, u, by rw [hab]; rfl⟩
      · rcases ih with hnr | ⟨pre, d, suf, hsplit⟩
        · exact Or.inl (List.chain'_cons.mpr ⟨hab, hnr⟩)
        · exact Or.inr ⟨a :: pre, d, suf, by rw [List.cons_append, ← hsplit]⟩

theorem getDirection_step (a : Pos) (d : Nat) (hd : d < 4) :
    getDirection a (stepPos a d) =
      (if d < 2 then Axis.vertical else Axis.horizontal) := by
  obtain ⟨r, c⟩ := a
  interval_cases d <;>
    simp only [getDirection, stepPos, dirDelta, DIRECTIONS, List.get?] <;>
    norm_num

theorem turn_iff_of_noRev (d d' : Nat) (h4 : d < 4) (h4' : d' < 4)
    (hrev : d' ≠ oppDir d) :
    ((if d < 2 then Axis.vertical else Axis.horizontal) ≠
      (if d' < 2 then Axis.vertical else Axis.horizontal)) ↔ d ≠ d' := by
  interval_cases d <;> interval_cases d' <;>
    first
      | exact absurd rfl hrev
      | decide

theorem calculateTurns_cons₂ (a b : Pos) (l : List Pos) :
    calculateTurns (a :: b :: l) =
      (match l.head? with
       | some c => if getDirection a b ≠ getDirection b c then 1 else 0
       | none => 0) + calculateTurns (b :: l) := by
  cases l <;> rfl

theorem calcTurns_posAlong :
    ∀ (ds : List Nat) (s : Pos), (∀ x ∈ ds, x < 4) → NoReversal ds →
      calculateTurns (posAlong s ds) = dirChanges ds := by
  intro ds
  induction ds with
  | nil => intro s _ _; rfl
  | cons d t ih =>
    intro s hd4 hnr
    cases t with
    | nil => rfl
    | cons d' u =>
      have hx4 : d < 4 := hd4 d (by simp)
      have hx4' : d' < 4 := hd4 d' (by simp)
      have hnr' : NoReversal (d' :: u) := (List.chain'_cons.mp hnr).2
      have hrev : d' ≠ oppDir d := (List.chain'_cons.mp hnr).1
      have hih := ih (stepPos s d) (fun x hx => hd4 x (by simp [hx])) hnr'
      obtain ⟨w, hw⟩ : ∃ w, posAlong (stepPos (stepPos s d) d') u =
          (stepPos (stepPos s d) d') :: w := by
        cases u <;> exact ⟨_, rfl⟩
      have hl : posAlong s (d :: d' :: u) =
          s :: stepPos s d :: stepPos (stepPos s d) d' :: w := by
        show s :: stepPos s d :: posAlong (stepPos (stepPos s d) d') u = _
        rw [hw]
      have hr : posAlong (stepPos s d) (d' :: u) =
          stepPos s d :: stepPos (stepPos s d) d' :: w := by
        show stepPos s d :: posAlong (stepPos (stepPos s d) d') u = _
        rw [hw]
      rw [hl]
      show (if getDirection s (stepPos s d) ≠
          getDirection (stepPos s d) (stepPos (stepPos s d) d') then 1 else 0) +
        calculateTurns (stepPos s d :: stepPos (stepPos s d) d' :: w) =
        dirChanges (d :: d' :: u)
      rw [← hr, hih, getDirection_step s d hx4, getDirection_step (stepPos s d) d' hx4',
        if_congr (turn_iff_of_noRev d d' hx4 hx4' hrev) rfl rfl]
      rfl

theorem simplifyAux_eq_turningPoints :
    ∀ pts : List Pos, simplifyAux pts = turningPoints pts := by
  intro pts
  induction pts with
  | nil => rfl
  | cons a t ih =>
    cases t with
    | nil => rfl
    | cons b u =>
      cases u with
      | nil => rfl
      | cons c r =>
        show (if getDirection a b ≠ getDirection b c then [b] else []) ++
            simplifyAux (b :: c :: r) = turningPoints (a :: b :: c :: r)
        rw [ih]
        show _ = ((a :: b :: c :: r).zip ((b :: c :: r).zip (c :: r))).filterMap
          (fun abc => if getDirection abc.1 abc.2.1 ≠ getDirection abc.2.1 abc.2.2
            then some abc.2.1 else none)
        rw [List.zip_cons_cons, List.zip_cons_cons, List.filterMap_cons]
        dsimp only
        by_cases hgd : getDirection a b ≠ getDirection b c
        · rw [if_pos hgd, if_pos hgd]
          show [b] ++ turningPoints (b :: c :: r) = b :: turningPoints (b :: c :: r)
          rw [List.singleton_append]
        · rw [if_neg hgd, if_neg hgd]
          show [] ++ turningPoints (b :: c :: r) = turningPoints (b :: c :: r)
          rw [List.nil_append]

theorem simplifyAux_length :
    ∀ pts : List Pos, (simplifyAux pts).length = calculateTurns pts := by
  intro pts
  induction pts with
  | nil => rfl
  | cons a t ih =>
    cases t with
    | nil => rfl
    | cons b u =>
      cases u with
      | nil => rfl
      | cons c r =>
        show ((if getDirection a b ≠ getDirection b c then [b] else []) ++
            simplifyAux (b :: c :: r)).length =
          (if getDirection a b ≠ getDirection b c then 1 else 0) +
            calculateTurns (b :: c :: r)
        rw [List.length_append, ih]
        by_cases hgd : getDirection a b ≠ getDirection b c
        · rw [if_pos hgd, if_pos hgd]
          rfl
        · rw [if_neg hgd, if_neg hgd]
          rfl

theorem head?_take_one {α : Type} (l : List α) (a : α) (h : l.head? = some a) :
    l.take 1 = [a] := by
  cases l with
  | nil => exact Option.noConfusion h
  | cons x t =>
    simp only [List.head?_cons] at h
    injection h with h
    rw [h]
    rfl

/-- C1: `PathFinder.findPath` is a correct bounded-turn connection search.
Equal endpoints always yield no path. For distinct endpoints, whenever some
orthogonal direction walk joins them with at most two direction changes and
interior cells the passability rule admits (empty board cells, the one-ring
extended border, or the destination itself), the search returns a path; when
no such walk exists it returns none; and every returned path stores a turn
count of at most two. -/
theorem pathCorrectness (start e : Pos) (board : BoardState) :
    (start = e → findPath start e board = none) ∧
    (start ≠ e → (∃ ds, IsConn start e board ds) →
      ∃ p, findPath start e board = some p ∧ p.turns ≤ 2) ∧
    ((∀ ds, ¬IsConn start e board ds) → findPath start e board = none) ∧
    (∀ p, findPath start e board = some p → p.turns ≤ 2) := by
  refine ⟨?_, ?_, ?_, ?_⟩
  · intro h
    rw [findPath, if_pos h]
  · intro hne hex
    obtain ⟨ds, hconn⟩ := hex
    obtain ⟨ds', hstrict, _⟩ := isConn_cut start e board ds.length ds (le_refl _) hconn
    obtain ⟨p, hp⟩ := findPath_complete start e board hne ds' hstrict
    refine ⟨p, hp, ?_⟩
    obtain ⟨_, hret, _⟩ := findPath_props start e board p hp
    obtain ⟨ds0, _, _, _, _, _, ht2, _⟩ := hret
    exact ht2
  · intro hnone
    cases hfp : findPath start e board with
    | none => rfl
    | some p =>
      exfalso
      obtain ⟨hne, hret, _⟩ := findPath_props start e board p hfp
      obtain ⟨ds0, hdne, hd4, hend, hpts, hturn, ht2, hinner⟩ := hret
      exact hnone ds0 ⟨hdne, hd4, hend,
        fun q hq => (specPassable_iff board e q).mpr (hinner q hq).1,
        by rw [← hturn]; exact ht2⟩
  · intro p hp
    obtain ⟨_, hret, _⟩ := findPath_props start e board p hp
    obtain ⟨ds0, _, _, _, _, _, ht2, _⟩ := hret
    exact ht2

theorem pathCorrectness_witness :
    ∃ p, findPath ⟨0, 0⟩ ⟨0, 1⟩ sampleBoard = some p ∧ p.turns ≤ 2 :=
  (pathCorrectness ⟨0, 0⟩ ⟨0, 1⟩ sampleBoard).2.1 (by decide)
    ⟨[3], by simp, by decide, rfl,
      by intro q hq; exact absurd hq (List.not_mem_nil q), by decide⟩

/-- C6: every path `findPath` returns stores exactly the turn count that
`calculateTurns` recomputes from its consecutive points, and `simplifyPath`
preserves the endpoints and the stored turn count while keeping exactly the
turning points between the two endpoints. -/
theorem turnCountExact (start e : Pos) (board : BoardState) (p : ConnPath)
    (h : findPath start e board = some p) :
    p.turns = calculateTurns p.points ∧
    p.points.head? = some start ∧ p.points.getLast? = some e ∧
    (simplifyPath p).turns = p.turns ∧
    (simplifyPath p).points = start :: (turningPoints p.points ++ [e]) ∧
    (turningPoints p.points).length = p.turns := by
  obtain ⟨hne, hret, hmin⟩ := findPath_props start e board p h
  obtain ⟨ds, hdne, hd4, hend, hpts, hturn, ht2, hinner⟩ := hret
  have hconn : IsConnStrict start e board ds :=
    ⟨⟨hdne, hd4, hend, fun q hq => (specPassable_iff board e q).mpr (hinner q hq).1,
      by rw [← hturn]; exact ht2⟩, fun q hq => (hinner q hq).2⟩
  have hlenp : p.points.length = ds.length + 1 := by
    rw [hpts, posAlong_length]
  have hnr : NoReversal ds := by
    rcases noReversal_or_split ds with h1 | ⟨pre, d, suf, hsplit⟩
    · exact h1
    · exfalso
      have hdlt : d < 4 := hd4 d (by rw [hsplit]; simp)
      have hconn' := reversal_shortcut start e board pre suf d hdlt hne
        (by rw [← hsplit]; exact hconn)
      have hb := hmin (pre ++ suf) hconn'
      have hlds : ds.length = pre.length + suf.length + 2 := by
        rw [hsplit, List.length_append]
        simp only [List.length_cons]
        omega
      rw [List.length_append] at hb
      omega
  have hcalc : calculateTurns p.points = dirChanges ds := by
    rw [hpts]
    exact calcTurns_posAlong ds start hd4 hnr
  have hturneq : p.turns = calculateTurns p.points := by
    rw [hcalc, hturn]
  have hhead : p.points.head? = some start := by
    rw [hpts]
    exact posAlong_head start ds
  have hlast : p.points.getLast? = some e := by
    rw [hpts, posAlong_getLast, hend]
  have htplen : (turningPoints p.points).length = p.turns := by
    rw [← simplifyAux_eq_turningPoints, simplifyAux_length, ← hturneq]
  have hlen2 : 2 ≤ p.points.length := by
    have : 1 ≤ ds.length := List.length_pos.mpr hdne
    omega
  have hsp : (simplifyPath p).turns = p.turns ∧
      (simplifyPath p).points = start :: (turningPoints p.points ++ [e]) := by
    by_cases hle : p.points.length ≤ 2
    · have hlen2' : p.points.length = 2 := by omega
      obtain ⟨x, y, hxy⟩ := List.length_eq_two.mp hlen2'
      have hx : x = start := by
        rw [hxy] at hhead
        simp only [List.head?_cons] at hhead
        exact Option.some.inj hhead
      have hy : y = e := by
        rw [hxy] at hlast
        rw [show ([x, y] : List Pos).getLast? = some y from rfl] at hlast
        exact Option.some.inj hlast
      have htp0 : turningPoints p.points = [] := by
        rw [hxy]
        rfl
      constructor
      · rw [simplifyPath, if_pos hle]
      · rw [simplifyPath, if_pos hle, htp0, hxy, hx, hy]
        rfl
    · have hx1 : p.points.take 1 = [start] := head?_take_one _ _ hhead
      constructor
      · rw [simplifyPath, if_neg hle]
      · rw [simplifyPath, if_neg hle]
        show p.points.take 1 ++ simplifyAux p.points ++ _ = _
        rw [hx1, hlast, simplifyAux_eq_turningPoints]
        show [start] ++ turningPoints p.points ++ [e] =
          start :: (turningPoints p.points ++ [e])
        rw [List.singleton_append, List.cons_append]
  exact ⟨hturneq, hhead, hlast, hsp.1, hsp.2, htplen⟩

theorem turnCountExact_witness :
    ∃ p, findPath ⟨0, 0⟩ ⟨0, 1⟩ sampleBoard = some p ∧
      p.turns = calculateTurns p.points ∧ p.points.head? = some ⟨0, 0⟩ ∧
      p.points.getLast? = some ⟨0, 1⟩ := by
  have hfp : findPath ⟨0, 0⟩ ⟨0, 1⟩ sampleBoard =
      some ⟨[⟨0, 0⟩, ⟨0, 1⟩], 0⟩ := by decide
  have h := turnCountExact ⟨0, 0⟩ ⟨0, 1⟩ sampleBoard ⟨[⟨0, 0⟩, ⟨0, 1⟩], 0⟩ hfp
  exact ⟨⟨[⟨0, 0⟩, ⟨0, 1⟩], 0⟩, hfp, h.1, h.2.1, h.2.2.1⟩
